import Mathlib

/-!
# Room broker of the temporary chat-room service

Shallow embedding of `Internal/Chat/chat.go` and `Internal/Hub/hub.go`.

* Pointers (`*Client`, `*Room`) are natural numbers; the clients live in a heap
  `ClientPtr → Client`.
* A buffered Go channel is its buffer plus a `closed` flag.  Sending on, or closing,
  a closed channel panics; a non-blocking send (`select … default`) succeeds exactly
  when the buffer has room.
* The channels carry `[]byte` values that are always `json.Marshal` of a `Message`;
  a queued item is identified with the `Message` it encodes.  `marshal` below gives the
  byte-level framing and is only needed to compare an envelope with a raw payload.
* `Room.run` is a loop around one `select`; `step` is one iteration of that loop for the
  case named by the event, or one action of another goroutine (`CloseRoom`, `ReadPump`,
  `WritePump`).  The iteration order of `range r.clients` is unspecified in Go and is
  supplied by the event.
-/

namespace ChatRoom

/-! ## Data model -/

abbrev ClientPtr := Nat

abbrev RoomPtr := Nat

/-- Envelope `Message` of chat.go; the field names are the JSON tags. -/
structure Message where
  type : String
  sender : String
  content : String
  time : Int
deriving DecidableEq, Repr

/-- Buffered channel of envelopes (`chan []byte`): queued items, oldest first. -/
structure Chan where
  buf : List Message
  closed : Bool
deriving DecidableEq, Repr

/-- Frames the broker writes to a websocket connection. -/
inductive Frame where
  | text (m : Message)
  | close
deriving DecidableEq, Repr

/-- Observable part of a `*websocket.Conn`: the frames written so far and whether
`Close` was called. -/
structure Conn where
  written : List Frame
  closed : Bool
deriving DecidableEq, Repr

/-- Client session `Client` of chat.go (the back-reference `room` is the one room modelled). -/
structure Client where
  conn : Conn
  send : Chan
  name : String
deriving DecidableEq, Repr

/-- Room record `Room` of chat.go.  `Broadcast` is the buffer of the inbox channel (no code
closes that channel); `closed` is true once `close(r.closed)` ran; `hub` is true when the
field `hub` is not nil. `Register` and `Unregister` are unbuffered and appear as events. -/
structure Room where
  ID : String
  clients : Finset ClientPtr
  Broadcast : List Message
  closed : Bool
  hub : Bool
deriving DecidableEq

/-- Registry `Hub` of hub.go: the map from room id to room pointer. -/
structure Hub where
  rooms : String → Option RoomPtr

/-- Whole system around one room: the room, the client heap, the registry, whether the
goroutine `run` has not yet returned, and the history of `HubAPI.DeleteRoom` calls made by it. -/
structure State where
  room : Room
  heap : ClientPtr → Client
  hub : Hub
  running : Bool
  deleteCalls : List String

/-! ## Constants -/

/-- Capacity of `Room.Broadcast` (`make(chan []byte, 256)` in `NewRoom`). -/
def broadcastCap : Nat := 256

/-- Capacity of `Client.send` (`make(chan []byte, 256)` in `NewClient`). -/
def sendCap : Nat := 256

/-! ## Channel and connection primitives -/

/-- Result of a non-blocking send `select { case ch <- m: default: }`. -/
inductive SendResult where
  | sent (ch : Chan)
  | full
  | panicked
deriving DecidableEq

/-- Non-blocking send on a buffered channel of capacity `cap`. -/
def Chan.trySend (cap : Nat) (ch : Chan) (m : Message) : SendResult :=
  if ch.closed then SendResult.panicked
  else if ch.buf.length < cap then SendResult.sent { ch with buf := ch.buf ++ [m] }
  else SendResult.full

/-- Builtin `close(ch)`: `none` is the panic on an already closed channel. -/
def Chan.close (ch : Chan) : Option Chan :=
  if ch.closed then none else some { ch with closed := true }

/-- Best-effort `conn.WriteMessage`: the error on a closed connection is ignored by every caller. -/
def Conn.WriteMessage (conn : Conn) (f : Frame) : Conn :=
  if conn.closed then conn else { conn with written := conn.written ++ [f] }

/-- Method `conn.Close()`. -/
def Conn.Close (conn : Conn) : Conn :=
  { conn with closed := true }

/-! ## Utilities -/

/-- Digit table of `encoding/hex`. -/
def hextable : List Char := "0123456789abcdef".toList

/-- Two lower-case hex digits of one byte. -/
def hexByte (b : Nat) : List Char :=
  [hextable.getD (b / 16) '0', hextable.getD (b % 16) '0']

/-- Function `hex.EncodeToString`. -/
def EncodeToString (bs : List Nat) : String :=
  String.mk (bs.flatMap hexByte)

/-- Function `newID`: `rand i` is the byte that `rand.Read` left at index `i` of the buffer. -/
def newID (n : Nat) (rand : Nat → Nat) : String :=
  EncodeToString ((List.range n).map (fun i => rand i % 256))

/-- Byte-level framing of `json.Marshal` for `Message`, keys taken from the struct tags;
`quote` is the JSON string-literal encoder of `encoding/json`. -/
def marshal (quote : String → String) (m : Message) : String :=
  "\x7b\"type\":" ++ quote m.type ++ ",\"sender\":" ++ quote m.sender ++
    ",\"content\":" ++ quote m.content ++ ",\"time\":" ++ toString m.time ++ "\x7d"

/-! ## Constructors -/

/-- Function `NewClient`: open, empty outbox of capacity 256. -/
def NewClient (conn : Conn) (name : String) : Client :=
  { conn := conn, send := { buf := [], closed := false }, name := name }

/-- Function `NewRoom` (the timer only ever calls `CloseRoom`, which is an event). -/
def NewRoom (hub : Bool) (rand : Nat → Nat) : Room :=
  { ID := newID 6 rand, clients := ∅, Broadcast := [], closed := false, hub := hub }

/-! ## Registry -/

/-- Function `NewHub`: registry with no rooms. -/
def NewHub : Hub :=
  { rooms := fun _ => none }

/-- Method `Hub.CreateRoom`; `p` is the address of the room allocated by `NewRoom`. -/
def Hub.CreateRoom (h : Hub) (rand : Nat → Nat) (p : RoomPtr) : Hub × Room :=
  let r := NewRoom true rand
  ({ rooms := Function.update h.rooms r.ID (some p) }, r)

/-- Method `Hub.GetRoom`: `none` is `ok == false`. -/
def Hub.GetRoom (h : Hub) (id : String) : Option RoomPtr :=
  h.rooms id

/-- Method `Hub.DeleteRoom`. -/
def Hub.DeleteRoom (h : Hub) (id : String) : Hub :=
  { rooms := Function.update h.rooms id none }

/-! ## The room -/

/-- Builtin `close` on the signal channel `closed chan struct{}`, given whether it is already
closed: `none` is the panic of a second close. -/
def closeSignal (closed : Bool) : Option Bool :=
  if closed then none else some true

/-- Method `Room.CloseRoom`: the receive case is ready exactly when `r.closed` is closed,
otherwise the default case closes it.  `none` is a panic. -/
def Room.CloseRoom (r : Room) : Option Room :=
  if r.closed then some r
  else (closeSignal r.closed).map (fun b => { r with closed := b })

/-- Envelope built by `ReadPump` for one received payload. -/
def readPumpMessage (name payload : String) (now : Int) : Message :=
  { type := "message", sender := name, content := payload, time := now }

/-- System notice built by `run`. -/
def systemMessage (content : String) (now : Int) : Message :=
  { type := "system", sender := "system", content := content, time := now }

/-- Fan-out loop of the `Broadcast` case of `run`, visiting the members in the given order.
`none` is a panic (send on a closed outbox). -/
def fanOut (msg : Message) :
    List ClientPtr → Finset ClientPtr × (ClientPtr → Client) →
      Option (Finset ClientPtr × (ClientPtr → Client))
  | [], st => some st
  | c :: cs, (members, heap) =>
    match (heap c).send.trySend sendCap msg with
    | SendResult.sent ch =>
      fanOut msg cs (members, Function.update heap c { heap c with send := ch })
    | SendResult.full =>
      match (heap c).send.close with
      | some ch =>
        fanOut msg cs (members.erase c, Function.update heap c { heap c with send := ch })
      | none => none
    | SendResult.panicked => none

/-- Member loop of the `closed` case of `run`; each visit carries its clock reading.
`none` is a panic (closing a closed outbox). -/
def shutdownClients :
    List (ClientPtr × Int) → Finset ClientPtr × (ClientPtr → Client) →
      Option (Finset ClientPtr × (ClientPtr → Client))
  | [], st => some st
  | (c, now) :: cs, (members, heap) =>
    let sys := systemMessage "room closed" now
    let conn := ((heap c).conn.WriteMessage (Frame.text sys)).WriteMessage Frame.close
    match (heap c).send.close with
    | some ch =>
      shutdownClients cs
        (members.erase c,
          Function.update heap c { heap c with conn := conn.Close, send := ch })
    | none => none

/-- Events: the four `select` cases of `run` and the actions of the other goroutines. -/
inductive Event where
  | register (c : ClientPtr) (now : Int)
  | unregister (c : ClientPtr) (now : Int)
  | broadcast (order : List ClientPtr)
  | closed (order : List (ClientPtr × Int))
  | closeRoom
  | readPump (c : ClientPtr) (payload : String) (now : Int)
  | writePump (c : ClientPtr)
deriving DecidableEq

/-- What happens when an event is attempted. -/
inductive Outcome where
  | ok (s : State)
  | notReady
  | blocked
  | panicked

/-- One event.  `notReady`: the event cannot occur in this state (the `select` case is not
ready, `run` has returned, the pump is parked, or the order is not an enumeration of the
members).  `blocked`: `run` is parked on a send that only `run` itself could unblock. -/
def step (s : State) : Event → Outcome
  | Event.register c now =>
    if s.running then
      let sys := systemMessage ((s.heap c).name ++ " joined") now
      if s.room.Broadcast.length < broadcastCap then
        Outcome.ok { s with room := { s.room with
          clients := insert c s.room.clients, Broadcast := s.room.Broadcast ++ [sys] } }
      else Outcome.blocked
    else Outcome.notReady
  | Event.unregister c now =>
    if s.running then
      if c ∈ s.room.clients then
        match (s.heap c).send.close with
        | some ch =>
          let sys := systemMessage ((s.heap c).name ++ " left") now
          let inbox :=
            if s.room.Broadcast.length < broadcastCap then s.room.Broadcast ++ [sys]
            else s.room.Broadcast
          Outcome.ok { s with
            room := { s.room with clients := s.room.clients.erase c, Broadcast := inbox },
            heap := Function.update s.heap c { s.heap c with send := ch } }
        | none => Outcome.panicked
      else Outcome.ok s
    else Outcome.notReady
  | Event.broadcast order =>
    if s.running ∧ order.Nodup ∧ order.toFinset = s.room.clients then
      match s.room.Broadcast with
      | [] => Outcome.notReady
      | msg :: rest =>
        match fanOut msg order (s.room.clients, s.heap) with
        | some (members, heap) =>
          Outcome.ok { s with
            room := { s.room with clients := members, Broadcast := rest }, heap := heap }
        | none => Outcome.panicked
    else Outcome.notReady
  | Event.closed order =>
    if s.running ∧ s.room.closed ∧ (order.map Prod.fst).Nodup ∧
        (order.map Prod.fst).toFinset = s.room.clients then
      match shutdownClients order (s.room.clients, s.heap) with
      | some (members, heap) =>
        let s1 : State := { s with room := { s.room with clients := members }, heap := heap }
        if s.room.hub then
          Outcome.ok { s1 with
            hub := s.hub.DeleteRoom s.room.ID,
            deleteCalls := s.deleteCalls ++ [s.room.ID],
            running := false }
        else Outcome.ok { s1 with running := false }
      | none => Outcome.panicked
    else Outcome.notReady
  | Event.closeRoom =>
    match s.room.CloseRoom with
    | some r => Outcome.ok { s with room := r }
    | none => Outcome.panicked
  | Event.readPump c payload now =>
    if s.room.Broadcast.length < broadcastCap then
      Outcome.ok { s with room := { s.room with
        Broadcast := s.room.Broadcast ++ [readPumpMessage (s.heap c).name payload now] } }
    else Outcome.notReady
  | Event.writePump c =>
    match (s.heap c).send.buf with
    | m :: rest =>
      Outcome.ok { s with heap := Function.update s.heap c { s.heap c with
        send := { (s.heap c).send with buf := rest },
        conn := (s.heap c).conn.WriteMessage (Frame.text m) } }
    | [] =>
      if (s.heap c).send.closed then
        Outcome.ok { s with heap := Function.update s.heap c { s.heap c with
          conn := ((s.heap c).conn.WriteMessage Frame.close).Close } }
      else Outcome.notReady

/-- Processing a sequence of events; the first event that does not complete decides. -/
def run (s : State) : List Event → Outcome
  | [] => Outcome.ok s
  | e :: es =>
    match step s e with
    | Outcome.ok s1 => run s1 es
    | Outcome.notReady => Outcome.notReady
    | Outcome.blocked => Outcome.blocked
    | Outcome.panicked => Outcome.panicked

/-- State right after `Hub.CreateRoom` on registry `h`: the new room is registered and its
loop runs; `names c` is the display name the session at address `c` is created with. -/
def initState (h : Hub) (rand : Nat → Nat) (p : RoomPtr) (names : ClientPtr → String) : State :=
  { room := (h.CreateRoom rand p).2,
    heap := fun c => NewClient { written := [], closed := false } (names c),
    hub := (h.CreateRoom rand p).1,
    running := true,
    deleteCalls := [] }

/-! ## Derived notions used in the statements -/

/-- Effect of one fan-out visit on a client whose outbox is open: push, or close when full. -/
def pushOrEvict (msg : Message) (cl : Client) : Client :=
  if cl.send.buf.length < sendCap then
    { cl with send := { cl.send with buf := cl.send.buf ++ [msg] } }
  else { cl with send := { cl.send with closed := true } }

/-- Sessions whose join is processed by an event. -/
def Event.joins : Event → List ClientPtr
  | Event.register c _ => [c]
  | _ => []

/-- Sessions joined along a trace, in order. -/
def joins (evs : List Event) : List ClientPtr :=
  evs.flatMap Event.joins

/-- Member/outbox invariant relative to the set `J` of sessions joined so far: members were
joined, and an outbox is open exactly for the members and for the sessions not yet joined. -/
def Inv (J : Finset ClientPtr) (s : State) : Prop :=
  s.room.clients ⊆ J ∧
    ∀ c, (s.heap c).send.closed = false ↔ (c ∈ s.room.clients ∨ c ∉ J)

/-- The outcome is not a panic and, when the event completed, the new state satisfies `P`. -/
def Outcome.safe (P : State → Prop) : Outcome → Prop
  | Outcome.ok s => P s
  | Outcome.panicked => False
  | _ => True

/-- Whether the event is the `closed` case of `run` (the shutdown path). -/
def Event.isShutdown : Event → Bool
  | Event.closed _ => true
  | _ => false

/-- Number of times the shutdown path is taken along a trace. -/
def shutdowns (evs : List Event) : Nat :=
  (evs.filter Event.isShutdown).length

/-- Sessions whose leave is processed by an event. -/
def Event.leaves : Event → List ClientPtr
  | Event.unregister c _ => [c]
  | _ => []

/-- Sessions whose leave is processed along a trace, in order. -/
def leaves (evs : List Event) : List ClientPtr :=
  evs.flatMap Event.leaves

/-- Members that a completed fan-out removed: the difference of the member sets. -/
def Event.evicted (s s1 : State) : Event → Finset ClientPtr
  | Event.broadcast _ => s.room.clients \ s1.room.clients
  | _ => ∅

/-- Sessions evicted by the fan-outs of a trace replayed from `s`. -/
def evictions (s : State) : List Event → Finset ClientPtr
  | [] => ∅
  | e :: es =>
    match step s e with
    | Outcome.ok s1 => e.evicted s s1 ∪ evictions s1 es
    | _ => ∅

/-- Sessions whose leave is processed after their join, `J` being the sessions joined before
the trace starts. -/
def leftAfterJoin (J : Finset ClientPtr) : List Event → Finset ClientPtr
  | [] => ∅
  | e :: es => (e.leaves.toFinset ∩ J) ∪ leftAfterJoin (J ∪ e.joins.toFinset) es

/-- Display names used in the examples. -/
def demoNames (c : ClientPtr) : String :=
  if c = 1 then "alice" else "bob"

/-- Random source that returns only zero bytes. -/
def zeroRand (_ : Nat) : Nat := 0

/-- Freshly created room used in the examples. -/
def demoInit : State :=
  initState NewHub zeroRand 1 demoNames

/-- Envelopes an event puts into the inbox when it completes in state `s`. -/
def Event.accepted (s : State) : Event → List Message
  | Event.register c now => [systemMessage ((s.heap c).name ++ " joined") now]
  | Event.unregister c now =>
    if c ∈ s.room.clients ∧ s.room.Broadcast.length < broadcastCap then
      [systemMessage ((s.heap c).name ++ " left") now]
    else []
  | Event.readPump c payload now => [readPumpMessage (s.heap c).name payload now]
  | _ => []

/-- Envelope the loop takes from the head of the inbox when the event completes. -/
def Event.taken (s : State) : Event → List Message
  | Event.broadcast _ => s.room.Broadcast.take 1
  | _ => []

/-- Number of items the event removes from the outbox of `c`. -/
def Event.pumped (c : ClientPtr) : Event → Nat
  | Event.writePump x => if x = c then 1 else 0
  | _ => 0

/-- Envelopes accepted into the inbox along a trace replayed from `s`, in order. -/
def accepted (s : State) : List Event → List Message
  | [] => []
  | e :: es =>
    match step s e with
    | Outcome.ok s1 => e.accepted s ++ accepted s1 es
    | _ => []

/-- Envelopes taken from the inbox by the fan-outs of a trace replayed from `s`, in order. -/
def taken (s : State) : List Event → List Message
  | [] => []
  | e :: es =>
    match step s e with
    | Outcome.ok s1 => e.taken s ++ taken s1 es
    | _ => []

/-- Number of items the outbound pump of `c` removes along a trace. -/
def pumped (c : ClientPtr) : List Event → Nat
  | [] => 0
  | e :: es => e.pumped c + pumped c es

/-- Trace that fills the inbox: alice joins, her join notice is fanned out, then her inbound
pump submits 256 payloads before the loop takes any of them. -/
def fullInboxTrace : List Event :=
  [Event.register 1 0, Event.broadcast [1]] ++ List.replicate 256 (Event.readPump 1 "x" 0)

/-- Continuation of a run after a completed prefix. -/
def Outcome.andThen (o : Outcome) (f : State → Outcome) : Outcome :=
  match o with
  | Outcome.ok s => f s
  | Outcome.notReady => Outcome.notReady
  | Outcome.blocked => Outcome.blocked
  | Outcome.panicked => Outcome.panicked

/-- State of a completed outcome, `d` when the events did not complete. -/
def Outcome.getD (o : Outcome) (d : State) : State :=
  match o with
  | Outcome.ok s => s
  | _ => d

/-- Example state: alice and bob have joined, both join notices are still in the inbox. -/
def demoJoined : State :=
  (run demoInit [Event.register 1 0, Event.register 2 0]).getD demoInit

/-- Example state: alice has joined and the close signal has been fired. -/
def demoClosing : State :=
  (run demoInit [Event.register 1 0, Event.closeRoom]).getD demoInit

/-- Example state: alice has joined, her join notice is still in the inbox. -/
def demoAlice : State :=
  (run demoInit [Event.register 1 0]).getD demoInit

/-- Example trace: alice submits "hi", the loop fans out two envelopes, her pump takes one. -/
def demoChat : List Event :=
  [Event.readPump 1 "hi" 1, Event.broadcast [1], Event.broadcast [1], Event.writePump 1]

/-- Example trace: three calls of `CloseRoom` around one shutdown. -/
def demoCloseTrace : List Event :=
  [Event.register 1 0, Event.closeRoom, Event.closeRoom, Event.closed [(1, 5)],
    Event.closeRoom]

/-! ## Lemmas and theorems -/

/-! ### Loops over the members -/

theorem fanOut_open (msg : Message) :
    ∀ (order : List ClientPtr) (members : Finset ClientPtr) (heap : ClientPtr → Client)
      (r : Finset ClientPtr × (ClientPtr → Client)),
      order.Nodup → fanOut msg order (members, heap) = some r →
      ∀ c ∈ order, (heap c).send.closed = false := by
  intro order
  induction order with
  | nil => intro _ _ _ _ _ c hc; simp at hc
  | cons a cs ih =>
    intro members heap r hnd hrun c hc
    have hnd2 := List.nodup_cons.mp hnd
    have ha : (heap a).send.closed = false := by
      by_contra hcl
      simp [fanOut, Chan.trySend, hcl] at hrun
    rcases List.mem_cons.mp hc with rfl | hmem
    · exact ha
    · have hne : c ≠ a := fun h => hnd2.1 (h ▸ hmem)
      simp only [fanOut, Chan.trySend, Chan.close, ha] at hrun
      by_cases hlen : (heap a).send.buf.length < sendCap
      · simp [hlen] at hrun
        have := ih _ _ _ hnd2.2 hrun c hmem
        simpa [Function.update_noteq hne] using this
      · simp [hlen] at hrun
        have := ih _ _ _ hnd2.2 hrun c hmem
        simpa [Function.update_noteq hne] using this

theorem fanOut_eq (msg : Message) :
    ∀ (order : List ClientPtr) (members : Finset ClientPtr) (heap : ClientPtr → Client),
      order.Nodup → (∀ c ∈ order, (heap c).send.closed = false) →
      fanOut msg order (members, heap) =
        some (members.filter (fun c => c ∉ order ∨ (heap c).send.buf.length < sendCap),
          fun c => if c ∈ order then pushOrEvict msg (heap c) else heap c) := by
  intro order
  induction order with
  | nil => intro members heap _ _; simp [fanOut]
  | cons a cs ih =>
    intro members heap hnd hopen
    have hnd2 := List.nodup_cons.mp hnd
    have ha : (heap a).send.closed = false := hopen a (List.mem_cons_self _ _)
    have hrest : ∀ (cl : Client), ∀ c ∈ cs, ((Function.update heap a cl) c).send.closed = false := by
      intro cl c hc
      have hne : c ≠ a := fun h => hnd2.1 (h ▸ hc)
      rw [Function.update_noteq hne]
      exact hopen c (List.mem_cons_of_mem _ hc)
    simp only [fanOut, Chan.trySend, Chan.close, ha]
    by_cases hlen : (heap a).send.buf.length < sendCap
    · simp only [hlen, if_true, Bool.false_eq_true, if_false]
      rw [ih _ _ hnd2.2 (hrest _)]
      congr 1
      refine Prod.ext ?_ ?_
      · ext x
        simp only [Finset.mem_filter, List.mem_cons]
        by_cases hx : x = a
        · subst hx; simp [hnd2.1, hlen]
        · simp [Function.update_noteq hx, hx]
      · funext x
        by_cases hx : x = a
        · subst hx; simp [hnd2.1, pushOrEvict, hlen, ha]
        · simp [Function.update_noteq hx, hx]
    · simp only [hlen, if_false, Bool.false_eq_true]
      rw [ih _ _ hnd2.2 (hrest _)]
      congr 1
      refine Prod.ext ?_ ?_
      · ext x
        simp only [Finset.mem_filter, List.mem_cons, Finset.mem_erase]
        by_cases hx : x = a
        · subst hx; simp [hnd2.1, hlen]
        · simp [Function.update_noteq hx, hx]
      · funext x
        by_cases hx : x = a
        · subst hx; simp [hnd2.1, pushOrEvict, hlen, ha]
        · simp [Function.update_noteq hx, hx]

theorem fanOut_some (msg : Message) (order : List ClientPtr) (members : Finset ClientPtr)
    (heap : ClientPtr → Client) (r : Finset ClientPtr × (ClientPtr → Client))
    (hnd : order.Nodup) (h : fanOut msg order (members, heap) = some r) :
    r = (members.filter (fun c => c ∉ order ∨ (heap c).send.buf.length < sendCap),
          fun c => if c ∈ order then pushOrEvict msg (heap c) else heap c) := by
  have hop := fanOut_open msg order members heap r hnd h
  rw [fanOut_eq msg order members heap hnd hop] at h
  exact (Option.some.inj h).symm

theorem shutdownClients_open :
    ∀ (order : List (ClientPtr × Int)) (members : Finset ClientPtr) (heap : ClientPtr → Client)
      (r : Finset ClientPtr × (ClientPtr → Client)),
      (order.map Prod.fst).Nodup → shutdownClients order (members, heap) = some r →
      ∀ c ∈ order.map Prod.fst, (heap c).send.closed = false := by
  intro order
  induction order with
  | nil => intro _ _ _ _ _ c hc; simp at hc
  | cons a cs ih =>
    obtain ⟨a, now⟩ := a
    intro members heap r hnd hrun c hc
    simp only [List.map_cons, List.nodup_cons] at hnd
    have ha : (heap a).send.closed = false := by
      by_contra hcl
      simp [shutdownClients, Chan.close, hcl] at hrun
    simp only [List.map_cons, List.mem_cons] at hc
    rcases hc with rfl | hmem
    · exact ha
    · have hne : c ≠ a := fun h => hnd.1 (h ▸ hmem)
      simp only [shutdownClients, Chan.close, ha] at hrun
      simp at hrun
      have := ih _ _ _ hnd.2 hrun c hmem
      simpa [Function.update_noteq hne] using this

theorem shutdownClients_eq :
    ∀ (order : List (ClientPtr × Int)) (members : Finset ClientPtr) (heap : ClientPtr → Client),
      (order.map Prod.fst).Nodup → (∀ c ∈ order.map Prod.fst, (heap c).send.closed = false) →
      ∃ heap1, shutdownClients order (members, heap) =
          some (members.filter (fun c => c ∉ order.map Prod.fst), heap1) ∧
        (∀ c, c ∉ order.map Prod.fst → heap1 c = heap c) ∧
        (∀ c ∈ order.map Prod.fst,
          (heap1 c).send = { (heap c).send with closed := true } ∧
          (heap1 c).conn.closed = true ∧ (heap1 c).name = (heap c).name) := by
  intro order
  induction order with
  | nil => intro members heap _ _; exact ⟨heap, by simp [shutdownClients], by simp, by simp⟩
  | cons a cs ih =>
    obtain ⟨a, now⟩ := a
    intro members heap hnd hopen
    simp only [List.map_cons, List.nodup_cons] at hnd
    have ha : (heap a).send.closed = false := hopen a (by simp)
    have hrest : ∀ (cl : Client), ∀ c ∈ cs.map Prod.fst,
        ((Function.update heap a cl) c).send.closed = false := by
      intro cl c hc
      have hne : c ≠ a := fun h => hnd.1 (h ▸ hc)
      rw [Function.update_noteq hne]
      exact hopen c (by simp only [List.map_cons, List.mem_cons]; exact Or.inr hc)
    simp only [shutdownClients, Chan.close, ha]
    obtain ⟨heap1, h1, h2, h3⟩ := ih (members.erase a) _ hnd.2 (hrest _)
    refine ⟨heap1, ?_, ?_, ?_⟩
    · simp only [Bool.false_eq_true, if_false]
      rw [h1]
      congr 2
      ext x
      simp only [Finset.mem_filter, Finset.mem_erase, List.map_cons, List.mem_cons]
      tauto
    · intro c hc
      simp only [List.map_cons, List.mem_cons, not_or] at hc
      rw [h2 c hc.2, Function.update_noteq hc.1]
    · intro c hc
      simp only [List.map_cons, List.mem_cons] at hc
      by_cases hca : c = a
      · subst hca
        rw [h2 c hnd.1]
        simp [Conn.Close, ha]
      · have hmem : c ∈ cs.map Prod.fst := by tauto
        have := h3 c hmem
        simpa [Function.update_noteq hca] using this

/-! ### Effect of one completed event -/

theorem step_register_ok (s s1 : State) (c : ClientPtr) (now : Int)
    (h : step s (Event.register c now) = Outcome.ok s1) :
    s1.room.clients = insert c s.room.clients ∧ s1.heap = s.heap ∧
      s1.room.Broadcast =
        s.room.Broadcast ++ [systemMessage ((s.heap c).name ++ " joined") now] := by
  by_cases h1 : s.running = true
  · by_cases h2 : s.room.Broadcast.length < broadcastCap
    · simp only [step, h1, h2, if_true, Outcome.ok.injEq] at h
      subst h; simp
    · simp [step, h1, h2] at h
  · simp [step, h1] at h

theorem step_unregister_ok (s s1 : State) (c : ClientPtr) (now : Int)
    (h : step s (Event.unregister c now) = Outcome.ok s1) :
    s1.room.clients = s.room.clients.erase c ∧ (∀ x, x ≠ c → s1.heap x = s.heap x) ∧
      s1.room.Broadcast = s.room.Broadcast ++
        (if c ∈ s.room.clients ∧ s.room.Broadcast.length < broadcastCap then
          [systemMessage ((s.heap c).name ++ " left") now] else []) := by
  by_cases h1 : s.running = true
  · by_cases h2 : c ∈ s.room.clients
    · cases h3 : (s.heap c).send.closed with
      | true => simp [step, h1, h2, Chan.close, h3] at h
      | false =>
        simp only [step, h1, h2, if_true, Chan.close, h3, Bool.false_eq_true, if_false,
          Outcome.ok.injEq] at h
        subst h
        refine ⟨rfl, fun x hx => by simp [Function.update_noteq hx], ?_⟩
        by_cases h4 : s.room.Broadcast.length < broadcastCap <;> simp [h4, h2]
    · simp only [step, h1, h2, if_true, if_false, Outcome.ok.injEq] at h
      subst h
      simp [h2]
  · simp [step, h1] at h

theorem step_broadcast_ok (s s1 : State) (order : List ClientPtr)
    (h : step s (Event.broadcast order) = Outcome.ok s1) :
    ∃ msg, s.room.Broadcast = msg :: s1.room.Broadcast ∧
      s1.room.clients =
        s.room.clients.filter (fun c => (s.heap c).send.buf.length < sendCap) ∧
      (s1.heap = fun c => if c ∈ s.room.clients then pushOrEvict msg (s.heap c) else s.heap c) ∧
      ∀ c ∈ s.room.clients, (s.heap c).send.closed = false := by
  by_cases h1 : s.running = true ∧ order.Nodup ∧ order.toFinset = s.room.clients
  · have hmem : ∀ c, c ∈ order ↔ c ∈ s.room.clients := by
      intro c; rw [← h1.2.2]; simp
    cases hb : s.room.Broadcast with
    | nil => simp [step, h1, hb] at h
    | cons msg rest =>
      cases hf : fanOut msg order (s.room.clients, s.heap) with
      | none => simp [step, h1, hb, hf] at h
      | some r =>
        have hop := fanOut_open msg order _ _ r h1.2.1 hf
        have hr := fanOut_some msg order _ _ r h1.2.1 hf
        simp only [step, h1, hb, hf, and_self, if_true, Outcome.ok.injEq] at h
        subst h
        subst hr
        refine ⟨msg, rfl, ?_, ?_, fun c hc => hop c ((hmem c).mpr hc)⟩
        · ext x
          simp only [Finset.mem_filter, hmem]
          tauto
        · funext x; simp [hmem]
  · simp [step, h1] at h

theorem step_closed_ok (s s1 : State) (order : List (ClientPtr × Int))
    (h : step s (Event.closed order) = Outcome.ok s1) :
    s1.room.clients = ∅ ∧ s1.room.Broadcast = s.room.Broadcast := by
  by_cases h1 : s.running = true ∧ s.room.closed = true ∧ (order.map Prod.fst).Nodup ∧
      (order.map Prod.fst).toFinset = s.room.clients
  · have hmem : ∀ c, c ∈ order.map Prod.fst ↔ c ∈ s.room.clients := by
      intro c; rw [← h1.2.2.2]; simp
    cases hf : shutdownClients order (s.room.clients, s.heap) with
    | none => simp [step, h1, hf] at h
    | some r =>
      have hop := shutdownClients_open order _ _ r h1.2.2.1 hf
      obtain ⟨heap1, e1, -, -⟩ := shutdownClients_eq order s.room.clients s.heap h1.2.2.1 hop
      rw [e1] at hf
      have hr := Option.some.inj hf
      have hempty : r.1 = ∅ := by
        rw [← hr]
        ext x
        simp only [Finset.mem_filter, Finset.not_mem_empty, iff_false, not_and, not_not]
        exact fun hx => (hmem x).mpr hx
      cases h5 : s.room.hub with
      | true =>
        simp only [step, h1, e1, and_self, if_true, h5, Outcome.ok.injEq] at h
        subst h
        exact ⟨by rw [← hempty, ← hr], rfl⟩
      | false =>
        simp only [step, h1, e1, and_self, if_true, h5, Bool.false_eq_true, if_false,
          Outcome.ok.injEq] at h
        subst h
        exact ⟨by rw [← hempty, ← hr], rfl⟩
  · simp [step, h1] at h

theorem step_closeRoom_ok (s s1 : State) (h : step s Event.closeRoom = Outcome.ok s1) :
    s1.room.clients = s.room.clients ∧ s1.heap = s.heap ∧
      s1.room.Broadcast = s.room.Broadcast := by
  cases h1 : s.room.closed with
  | true =>
    simp only [step, Room.CloseRoom, h1, if_true, Outcome.ok.injEq] at h
    subst h; simp
  | false =>
    simp only [step, Room.CloseRoom, closeSignal, h1, Bool.false_eq_true, if_false,
      Option.map_some', Outcome.ok.injEq] at h
    subst h; simp

theorem step_readPump_ok (s s1 : State) (c : ClientPtr) (payload : String) (now : Int)
    (h : step s (Event.readPump c payload now) = Outcome.ok s1) :
    s1.room.clients = s.room.clients ∧ s1.heap = s.heap ∧
      s1.room.Broadcast =
        s.room.Broadcast ++ [readPumpMessage (s.heap c).name payload now] := by
  by_cases h1 : s.room.Broadcast.length < broadcastCap
  · simp only [step, h1, if_true, Outcome.ok.injEq] at h
    subst h; simp
  · simp [step, h1] at h

theorem step_writePump_ok (s s1 : State) (c : ClientPtr)
    (h : step s (Event.writePump c) = Outcome.ok s1) :
    s1.room.clients = s.room.clients ∧ s1.room.Broadcast = s.room.Broadcast ∧
      (∀ x, x ≠ c → s1.heap x = s.heap x) ∧
      (s1.heap c).send.closed = (s.heap c).send.closed ∧
      (s1.heap c).send.buf = (s.heap c).send.buf.drop 1 ∧
      ((s.heap c).send.closed = false → 1 ≤ (s.heap c).send.buf.length) := by
  cases hb : (s.heap c).send.buf with
  | nil =>
    cases h1 : (s.heap c).send.closed with
    | true =>
      simp only [step, hb, h1, if_true, Outcome.ok.injEq] at h
      subst h
      refine ⟨rfl, rfl, fun x hx => by simp [Function.update_noteq hx], ?_, ?_, ?_⟩
      · simp [h1]
      · simp [hb]
      · simp
    | false => simp [step, hb, h1] at h
  | cons m rest =>
    simp only [step, hb, Outcome.ok.injEq] at h
    subst h
    refine ⟨rfl, rfl, fun x hx => by simp [Function.update_noteq hx], ?_, ?_, ?_⟩
    · simp
    · simp
    · simp

theorem step_closed_of_open (s : State) (order : List (ClientPtr × Int))
    (hrun : s.running = true) (hsig : s.room.closed = true)
    (hopen : ∀ c ∈ s.room.clients, (s.heap c).send.closed = false)
    (hord : (order.map Prod.fst).Nodup ∧ (order.map Prod.fst).toFinset = s.room.clients) :
    ∃ s1, step s (Event.closed order) = Outcome.ok s1 ∧
      s1.room.clients = ∅ ∧
      (∀ c ∈ s.room.clients,
        (s1.heap c).send.closed = true ∧ (s1.heap c).conn.closed = true) ∧
      s1.room.ID = s.room.ID ∧ s1.running = false ∧
      s1.hub = (if s.room.hub then s.hub.DeleteRoom s.room.ID else s.hub) ∧
      s1.deleteCalls = s.deleteCalls ++ (if s.room.hub then [s.room.ID] else []) := by
  have hmem : ∀ c, c ∈ order.map Prod.fst ↔ c ∈ s.room.clients := by
    intro c; rw [← hord.2]; simp
  obtain ⟨heap1, e1, -, e3⟩ := shutdownClients_eq order s.room.clients s.heap hord.1
    (fun c hc => hopen c ((hmem c).mp hc))
  have hempty : s.room.clients.filter (fun c => c ∉ order.map Prod.fst) = ∅ := by
    ext x
    simp only [Finset.mem_filter, Finset.not_mem_empty, iff_false, not_and, not_not]
    exact fun hx => (hmem x).mpr hx
  have hheap : ∀ c ∈ s.room.clients,
      (heap1 c).send.closed = true ∧ (heap1 c).conn.closed = true := by
    intro c hc
    have := e3 c ((hmem c).mpr hc)
    exact ⟨by rw [this.1], this.2.1⟩
  cases h5 : s.room.hub with
  | true =>
    refine ⟨{ s with
      room := { s.room with
        clients := s.room.clients.filter (fun c => c ∉ order.map Prod.fst) },
      heap := heap1,
      hub := s.hub.DeleteRoom s.room.ID,
      deleteCalls := s.deleteCalls ++ [s.room.ID],
      running := false }, ?_, hempty, hheap, rfl, rfl, by simp, by simp⟩
    simp only [step, hrun, hsig, hord, and_self, if_true, e1, h5]
  | false =>
    refine ⟨{ s with
      room := { s.room with
        clients := s.room.clients.filter (fun c => c ∉ order.map Prod.fst) },
      heap := heap1,
      running := false }, ?_, hempty, hheap, rfl, rfl, by simp, by simp⟩
    simp only [step, hrun, hsig, hord, and_self, if_true, e1, h5, Bool.false_eq_true,
      if_false]

/-- Effect of a completed event on the control state of the loop. -/
theorem step_control (s s1 : State) (e : Event) (h : step s e = Outcome.ok s1) :
    s1.room.ID = s.room.ID ∧ s1.room.hub = s.room.hub ∧
      (e.isShutdown = true → s.running = true ∧ s1.running = false ∧
        s1.deleteCalls = s.deleteCalls ++ (if s.room.hub then [s.room.ID] else [])) ∧
      (e.isShutdown = false → s1.running = s.running ∧ s1.deleteCalls = s.deleteCalls) := by
  cases e with
  | register c now =>
    by_cases h1 : s.running = true
    · by_cases h2 : s.room.Broadcast.length < broadcastCap
      · simp only [step, h1, h2, if_true, Outcome.ok.injEq] at h
        subst h; simp [Event.isShutdown, h1]
      · simp [step, h1, h2] at h
    · simp [step, h1] at h
  | unregister c now =>
    by_cases h1 : s.running = true
    · by_cases h2 : c ∈ s.room.clients
      · cases h3 : (s.heap c).send.closed with
        | true => simp [step, h1, h2, Chan.close, h3] at h
        | false =>
          simp only [step, h1, h2, if_true, Chan.close, h3, Bool.false_eq_true, if_false,
            Outcome.ok.injEq] at h
          subst h; simp [Event.isShutdown, h1]
      · simp only [step, h1, h2, if_true, if_false, Outcome.ok.injEq] at h
        subst h; simp [Event.isShutdown]
    · simp [step, h1] at h
  | broadcast order =>
    by_cases h1 : s.running = true ∧ order.Nodup ∧ order.toFinset = s.room.clients
    · cases hb : s.room.Broadcast with
      | nil => simp [step, h1, hb] at h
      | cons msg rest =>
        cases hf : fanOut msg order (s.room.clients, s.heap) with
        | none => simp [step, h1, hb, hf] at h
        | some r =>
          simp only [step, h1, hb, hf, and_self, if_true, Outcome.ok.injEq] at h
          subst h; simp [Event.isShutdown, h1.1]
    · simp [step, h1] at h
  | closed order =>
    by_cases h1 : s.running = true ∧ s.room.closed = true ∧ (order.map Prod.fst).Nodup ∧
        (order.map Prod.fst).toFinset = s.room.clients
    · cases hf : shutdownClients order (s.room.clients, s.heap) with
      | none => simp [step, h1, hf] at h
      | some r =>
        cases h5 : s.room.hub with
        | true =>
          simp only [step, h1, hf, and_self, if_true, h5, Outcome.ok.injEq] at h
          subst h; simp [Event.isShutdown, h1.1, h5]
        | false =>
          simp only [step, h1, hf, and_self, if_true, h5, Bool.false_eq_true, if_false,
            Outcome.ok.injEq] at h
          subst h; simp [Event.isShutdown, h1.1, h5]
    · simp [step, h1] at h
  | closeRoom =>
    cases h1 : s.room.closed with
    | true =>
      simp only [step, Room.CloseRoom, h1, if_true, Outcome.ok.injEq] at h
      subst h; simp [Event.isShutdown]
    | false =>
      simp only [step, Room.CloseRoom, closeSignal, h1, Bool.false_eq_true, if_false,
        Option.map_some', Outcome.ok.injEq] at h
      subst h; simp [Event.isShutdown]
  | readPump c payload now =>
    by_cases h1 : s.room.Broadcast.length < broadcastCap
    · simp only [step, h1, if_true, Outcome.ok.injEq] at h
      subst h; simp [Event.isShutdown]
    · simp [step, h1] at h
  | writePump c =>
    cases hb : (s.heap c).send.buf with
    | nil =>
      cases h1 : (s.heap c).send.closed with
      | true =>
        simp only [step, hb, h1, if_true, Outcome.ok.injEq] at h
        subst h; simp [Event.isShutdown]
      | false => simp [step, hb, h1] at h
    | cons m rest =>
      simp only [step, hb, Outcome.ok.injEq] at h
      subst h; simp [Event.isShutdown]

theorem step_register_blocked (s : State) (c : ClientPtr) (now : Int)
    (hrun : s.running = true) (hfull : broadcastCap ≤ s.room.Broadcast.length) :
    step s (Event.register c now) = Outcome.blocked := by
  have h2 : ¬ s.room.Broadcast.length < broadcastCap := by omega
  simp [step, hrun, h2]

/-- The join is the only event in which the loop can block, and only on a full inbox. -/
theorem blocked_only_in_register (s : State) (e : Event) (h : step s e = Outcome.blocked) :
    ∃ c now, e = Event.register c now ∧ s.running = true ∧
      broadcastCap ≤ s.room.Broadcast.length := by
  cases e with
  | register c now =>
    by_cases h1 : s.running = true
    · by_cases h2 : s.room.Broadcast.length < broadcastCap
      · simp [step, h1, h2] at h
      · exact ⟨c, now, rfl, h1, by omega⟩
    · simp [step, h1] at h
  | unregister c now =>
    exfalso
    by_cases h1 : s.running = true
    · by_cases h2 : c ∈ s.room.clients
      · cases h3 : (s.heap c).send.closed <;> simp [step, h1, h2, Chan.close, h3] at h
      · simp [step, h1, h2] at h
    · simp [step, h1] at h
  | broadcast order =>
    exfalso
    by_cases h1 : s.running = true ∧ order.Nodup ∧ order.toFinset = s.room.clients
    · cases hb : s.room.Broadcast with
      | nil => simp [step, h1, hb] at h
      | cons msg rest =>
        cases hf : fanOut msg order (s.room.clients, s.heap) <;>
          simp [step, h1, hb, hf] at h
    · simp [step, h1] at h
  | closed order =>
    exfalso
    by_cases h1 : s.running = true ∧ s.room.closed = true ∧ (order.map Prod.fst).Nodup ∧
        (order.map Prod.fst).toFinset = s.room.clients
    · cases hf : shutdownClients order (s.room.clients, s.heap) with
      | none => simp [step, h1, hf] at h
      | some r => cases h5 : s.room.hub <;> simp [step, h1, hf, h5] at h
    · simp [step, h1] at h
  | closeRoom =>
    exfalso
    cases h1 : s.room.closed <;> simp [step, Room.CloseRoom, closeSignal, h1] at h
  | readPump c payload now =>
    exfalso
    by_cases h1 : s.room.Broadcast.length < broadcastCap <;> simp [step, h1] at h
  | writePump c =>
    exfalso
    cases hb : (s.heap c).send.buf with
    | nil => cases h1 : (s.heap c).send.closed <;> simp [step, hb, h1] at h
    | cons m rest => simp [step, hb] at h

/-! ### Runs -/

theorem run_cons_ok (s s2 : State) (e : Event) (es : List Event)
    (h : run s (e :: es) = Outcome.ok s2) :
    ∃ s1, step s e = Outcome.ok s1 ∧ run s1 es = Outcome.ok s2 := by
  cases hs : step s e with
  | ok s1 => exact ⟨s1, rfl, by simpa [run, hs] using h⟩
  | notReady => simp [run, hs] at h
  | blocked => simp [run, hs] at h
  | panicked => simp [run, hs] at h

theorem run_append : ∀ (a b : List Event) (s : State),
    run s (a ++ b) = (run s a).andThen (fun s1 => run s1 b) := by
  intro a
  induction a with
  | nil => intro b s; simp [run, Outcome.andThen]
  | cons e es ih =>
    intro b s
    cases hs : step s e with
    | ok s1 => simp [run, hs, ih]
    | notReady => simp [run, hs, Outcome.andThen]
    | blocked => simp [run, hs, Outcome.andThen]
    | panicked => simp [run, hs, Outcome.andThen]

theorem run_control : ∀ (evs : List Event) (s s2 : State), run s evs = Outcome.ok s2 →
    s2.room.ID = s.room.ID ∧ s2.room.hub = s.room.hub ∧
      (s.running = false →
        shutdowns evs = 0 ∧ s2.running = false ∧ s2.deleteCalls = s.deleteCalls) ∧
      (s.running = true →
        shutdowns evs ≤ 1 ∧ (s2.running = false ↔ shutdowns evs = 1) ∧
        s2.deleteCalls = s.deleteCalls ++
          (if s.room.hub then List.replicate (shutdowns evs) s.room.ID else [])) := by
  intro evs
  induction evs with
  | nil =>
    intro s s2 h
    simp only [run, Outcome.ok.injEq] at h
    subst h
    simp [shutdowns]
  | cons e es ih =>
    intro s s2 h
    obtain ⟨s1, hs, hr⟩ := run_cons_ok s s2 e es h
    obtain ⟨i1, i2, i3, i4⟩ := ih s1 s2 hr
    obtain ⟨c1, c2, c3, c4⟩ := step_control s s1 e hs
    refine ⟨i1.trans c1, i2.trans c2, ?_, ?_⟩
    · intro hrun
      cases hsh : e.isShutdown with
      | true => have := (c3 hsh).1; rw [hrun] at this; exact absurd this (by simp)
      | false =>
        obtain ⟨d1, d2⟩ := c4 hsh
        obtain ⟨j1, j2, j3⟩ := i3 (d1.trans hrun)
        refine ⟨?_, j2, j3.trans d2⟩
        simpa [shutdowns, List.filter_cons, hsh] using j1
    · intro hrun
      cases hsh : e.isShutdown with
      | true =>
        obtain ⟨-, d2, d3⟩ := c3 hsh
        obtain ⟨j1, j2, j3⟩ := i3 d2
        have hcount : shutdowns (e :: es) = 1 := by
          simpa [shutdowns, List.filter_cons, hsh] using j1
        refine ⟨by omega, by simp [hcount, j2], ?_⟩
        rw [j3, d3, hcount]
        by_cases hh : s.room.hub = true <;> simp [hh]
      | false =>
        obtain ⟨d1, d2⟩ := c4 hsh
        obtain ⟨j1, j2, j3⟩ := i4 (d1.trans hrun)
        have hcount : shutdowns (e :: es) = shutdowns es := by
          simp [shutdowns, List.filter_cons, hsh]
        rw [hcount]
        refine ⟨j1, j2, ?_⟩
        rw [j3, d2, c1, c2]

theorem run_readPumps (c : ClientPtr) (payload : String) (now : Int) :
    ∀ (n : Nat) (s : State), s.room.Broadcast.length + n ≤ broadcastCap →
      ∃ s1, run s (List.replicate n (Event.readPump c payload now)) = Outcome.ok s1 ∧
        s1.room.Broadcast.length = s.room.Broadcast.length + n ∧
        s1.running = s.running ∧ s1.room.clients = s.room.clients ∧
        s1.room.closed = s.room.closed ∧ s1.heap = s.heap := by
  intro n
  induction n with
  | zero => intro s _; exact ⟨s, by simp [run], by simp, rfl, rfl, rfl, rfl⟩
  | succ n ih =>
    intro s hlen
    have h1 : s.room.Broadcast.length < broadcastCap := by omega
    obtain ⟨s1, e1, e2, e3, e4, e5, e6⟩ := ih
      { s with room := { s.room with
          Broadcast := s.room.Broadcast ++ [readPumpMessage (s.heap c).name payload now] } }
      (by simp only [List.length_append, List.length_singleton]; omega)
    refine ⟨s1, ?_, ?_, e3, e4, e5, e6⟩
    · simp only [List.replicate_succ, run, step, h1, if_true]
      exact e1
    · rw [e2]
      simp only [List.length_append, List.length_singleton]
      omega

/-! ### Member/outbox invariant -/

theorem Outcome.safe_iff (P : State → Prop) (o : Outcome) :
    o.safe P ↔ o ≠ Outcome.panicked ∧ ∀ s, o = Outcome.ok s → P s := by
  cases o <;> simp [Outcome.safe]

theorem Inv.open_of_mem {J : Finset ClientPtr} {s : State} (h : Inv J s) :
    ∀ c ∈ s.room.clients, (s.heap c).send.closed = false :=
  fun c hc => (h.2 c).mpr (Or.inl hc)

theorem step_inv (J : Finset ClientPtr) (s : State) (e : Event) (hinv : Inv J s)
    (hfresh : ∀ c ∈ e.joins, c ∉ J) :
    (step s e).safe (Inv (J ∪ e.joins.toFinset)) := by
  obtain ⟨hsub, hiff⟩ := hinv
  cases e with
  | register c now =>
    have hc : c ∉ J := hfresh c (by simp [Event.joins])
    by_cases h1 : s.running = true
    · by_cases h2 : s.room.Broadcast.length < broadcastCap
      · simp only [step, h1, h2, if_true, Outcome.safe]
        refine ⟨?_, ?_⟩
        · intro x hx
          simp only [Finset.mem_insert] at hx
          simp only [Event.joins, List.toFinset_cons, List.toFinset_nil, Finset.mem_union,
            Finset.mem_insert, Finset.not_mem_empty, or_false]
          rcases hx with rfl | hx
          · exact Or.inr rfl
          · exact Or.inl (hsub hx)
        · intro x
          simp only [Event.joins, List.toFinset_cons, List.toFinset_nil, Finset.mem_union,
            Finset.mem_insert, Finset.not_mem_empty, or_false, hiff x]
          by_cases hx : x = c
          · subst hx; simp [hc]
          · simp [hx]
      · simp [step, h1, h2, Outcome.safe]
    · simp [step, h1, Outcome.safe]
  | unregister c now =>
    by_cases h1 : s.running = true
    · by_cases h2 : c ∈ s.room.clients
      · have hop := (hiff c).mpr (Or.inl h2)
        simp only [step, h1, h2, if_true, Chan.close, hop, Bool.false_eq_true, if_false,
          Outcome.safe, Event.joins, List.toFinset_nil, Finset.union_empty]
        refine ⟨fun x hx => hsub (Finset.mem_of_mem_erase hx), ?_⟩
        intro x
        by_cases hx : x = c
        · subst hx
          simp [hsub h2]
        · simp [Function.update_noteq hx, hx, hiff x]
      · simp only [step, h1, h2, if_true, if_false, Outcome.safe, Event.joins,
          List.toFinset_nil, Finset.union_empty]
        exact ⟨hsub, hiff⟩
    · simp [step, h1, Outcome.safe]
  | broadcast order =>
    by_cases h1 : s.running = true ∧ order.Nodup ∧ order.toFinset = s.room.clients
    · cases hb : s.room.Broadcast with
      | nil => simp [step, h1, hb, Outcome.safe]
      | cons msg rest =>
        have hmem : ∀ c, c ∈ order ↔ c ∈ s.room.clients := by
          intro c; rw [← h1.2.2]; simp
        have hop : ∀ c ∈ order, (s.heap c).send.closed = false := by
          intro c hc
          exact (hiff c).mpr (Or.inl ((hmem c).mp hc))
        simp only [step, h1, hb, and_self, if_true, fanOut_eq msg order _ _ h1.2.1 hop,
          Outcome.safe, Event.joins, List.toFinset_nil, Finset.union_empty]
        refine ⟨fun x hx => hsub (Finset.mem_of_mem_filter x hx), ?_⟩
        intro x
        simp only [Finset.mem_filter, hmem]
        by_cases hx : x ∈ s.room.clients
        · have hxo := (hiff x).mpr (Or.inl hx)
          by_cases hlen : (s.heap x).send.buf.length < sendCap
          · simp [hx, pushOrEvict, hlen, hxo]
          · simp [hx, pushOrEvict, hlen, hsub hx]
        · simp [hx, hiff x]
    · simp [step, h1, Outcome.safe]
  | closed order =>
    by_cases h1 : s.running = true ∧ s.room.closed = true ∧ (order.map Prod.fst).Nodup ∧
        (order.map Prod.fst).toFinset = s.room.clients
    · have hmem : ∀ c, c ∈ order.map Prod.fst ↔ c ∈ s.room.clients := by
        intro c; rw [← h1.2.2.2]; simp
      have hop : ∀ c ∈ order.map Prod.fst, (s.heap c).send.closed = false := by
        intro c hc
        exact (hiff c).mpr (Or.inl ((hmem c).mp hc))
      obtain ⟨heap1, h2, h3, h4⟩ := shutdownClients_eq order s.room.clients s.heap h1.2.2.1 hop
      have key1 : s.room.clients.filter (fun c => c ∉ order.map Prod.fst) ⊆ J :=
        fun x hx => hsub (Finset.mem_of_mem_filter x hx)
      have key2 : ∀ x, (heap1 x).send.closed = false ↔
          (x ∈ s.room.clients.filter (fun c => c ∉ order.map Prod.fst) ∨ x ∉ J) := by
        intro x
        simp only [Finset.mem_filter]
        by_cases hx : x ∈ s.room.clients
        · have hx2 := (hmem x).mpr hx
          simp [(h4 x hx2).1, hx2, hsub hx]
        · have hx2 : x ∉ order.map Prod.fst := fun hh => hx ((hmem x).mp hh)
          rw [h3 x hx2]
          simp only [hx, false_and, false_or]
          simpa [hx] using hiff x
      simp only [step, h1, and_self, if_true, h2, Event.joins, List.toFinset_nil,
        Finset.union_empty]
      by_cases h5 : s.room.hub = true
      · simp only [h5, if_true, Outcome.safe]; exact ⟨key1, key2⟩
      · simp only [h5, if_false, Outcome.safe]; exact ⟨key1, key2⟩
    · simp [step, h1, Outcome.safe]
  | closeRoom =>
    simp only [Event.joins, List.toFinset_nil, Finset.union_empty]
    by_cases h1 : s.room.closed = true
    · simp only [step, Room.CloseRoom, h1, if_true, Outcome.safe]
      exact ⟨hsub, hiff⟩
    · simp only [step, Room.CloseRoom, closeSignal, h1, if_false, Option.map_some',
        Outcome.safe]
      exact ⟨hsub, hiff⟩
  | readPump c payload now =>
    simp only [Event.joins, List.toFinset_nil, Finset.union_empty]
    by_cases h1 : s.room.Broadcast.length < broadcastCap
    · simp only [step, h1, if_true, Outcome.safe]
      exact ⟨hsub, hiff⟩
    · simp [step, h1, Outcome.safe]
  | writePump c =>
    simp only [Event.joins, List.toFinset_nil, Finset.union_empty]
    cases hb : (s.heap c).send.buf with
    | nil =>
      by_cases h1 : (s.heap c).send.closed = true
      · simp only [step, hb, h1, if_true, Outcome.safe]
        refine ⟨hsub, fun x => ?_⟩
        by_cases hx : x = c
        · subst hx; simpa using hiff x
        · simpa [Function.update_noteq hx] using hiff x
      · simp [step, hb, h1, Outcome.safe]
    | cons m rest =>
      simp only [step, hb, Outcome.safe]
      refine ⟨hsub, fun x => ?_⟩
      by_cases hx : x = c
      · subst hx; simpa using hiff x
      · simpa [Function.update_noteq hx] using hiff x

theorem run_inv : ∀ (evs : List Event) (J : Finset ClientPtr) (s : State), Inv J s →
    (joins evs).Nodup → (∀ c ∈ joins evs, c ∉ J) →
    (run s evs).safe (Inv (J ∪ (joins evs).toFinset)) := by
  intro evs
  induction evs with
  | nil => intro J s hinv _ _; simpa [run, joins, Outcome.safe] using hinv
  | cons e es ih =>
    intro J s hinv hnd hfresh
    have hj : joins (e :: es) = e.joins ++ joins es := by simp [joins]
    rw [hj] at hnd hfresh
    have hstep := step_inv J s e hinv (fun c hc => hfresh c (List.mem_append_left _ hc))
    cases hs : step s e with
    | ok s1 =>
      rw [hs] at hstep
      have hfresh1 : ∀ c ∈ joins es, c ∉ J ∪ e.joins.toFinset := by
        intro c hc
        simp only [Finset.mem_union, List.mem_toFinset, not_or]
        exact ⟨hfresh c (List.mem_append_right _ hc),
          fun hce => (List.nodup_append.mp hnd).2.2 hce hc⟩
      have := ih (J ∪ e.joins.toFinset) s1 hstep (List.nodup_append.mp hnd).2.1 hfresh1
      simp only [run, hs, hj, List.toFinset_append]
      rwa [Finset.union_assoc] at this
    | notReady => simp [run, hs, Outcome.safe]
    | blocked => simp [run, hs, Outcome.safe]
    | panicked => rw [hs] at hstep; exact absurd hstep (by simp [Outcome.safe])

theorem initState_inv (h : Hub) (rand : Nat → Nat) (p : RoomPtr) (names : ClientPtr → String) :
    Inv ∅ (initState h rand p names) := by
  refine ⟨?_, ?_⟩
  · simp [initState, Hub.CreateRoom, NewRoom]
  · intro c
    simp [initState, Hub.CreateRoom, NewRoom, NewClient]

/-! ### Membership and delivery along a run -/

theorem step_members (s s1 : State) (e : Event) (h : step s e = Outcome.ok s1)
    (hsh : e.isShutdown = false) :
    s1.room.clients =
        (s.room.clients ∪ e.joins.toFinset) \ (e.leaves.toFinset ∪ e.evicted s s1) ∧
      e.evicted s s1 ⊆ s.room.clients ∧ (∀ x ∈ e.joins, x ∉ e.leaves) := by
  cases e with
  | register c now =>
    obtain ⟨h1, -, -⟩ := step_register_ok s s1 c now h
    refine ⟨?_, by simp [Event.evicted], by simp [Event.leaves]⟩
    rw [h1]; ext x; simp [Event.joins, Event.leaves, Event.evicted]; exact or_comm
  | unregister c now =>
    obtain ⟨h1, -, -⟩ := step_unregister_ok s s1 c now h
    refine ⟨?_, by simp [Event.evicted], by simp [Event.joins]⟩
    rw [h1]; ext x; simp [Event.joins, Event.leaves, Event.evicted]; tauto
  | broadcast order =>
    obtain ⟨msg, -, h1, -, -⟩ := step_broadcast_ok s s1 order h
    refine ⟨?_, by simp [Event.evicted], by simp [Event.joins]⟩
    rw [h1]; ext x; simp [Event.joins, Event.leaves, Event.evicted, h1]
  | closed order => simp [Event.isShutdown] at hsh
  | closeRoom =>
    obtain ⟨h1, -, -⟩ := step_closeRoom_ok s s1 h
    refine ⟨?_, by simp [Event.evicted], by simp [Event.joins]⟩
    rw [h1]; simp [Event.joins, Event.leaves, Event.evicted]
  | readPump c payload now =>
    obtain ⟨h1, -, -⟩ := step_readPump_ok s s1 c payload now h
    refine ⟨?_, by simp [Event.evicted], by simp [Event.joins]⟩
    rw [h1]; simp [Event.joins, Event.leaves, Event.evicted]
  | writePump c =>
    obtain ⟨h1, -⟩ := step_writePump_ok s s1 c h
    refine ⟨?_, by simp [Event.evicted], by simp [Event.joins]⟩
    rw [h1]; simp [Event.joins, Event.leaves, Event.evicted]

theorem members_replay_aux : ∀ (evs : List Event) (J : Finset ClientPtr) (s s2 : State),
    run s evs = Outcome.ok s2 → s.room.clients ⊆ J → (joins evs).Nodup →
    (∀ c ∈ joins evs, c ∉ J) → shutdowns evs = 0 →
    s2.room.clients =
      (s.room.clients ∪ (joins evs).toFinset) \ (leftAfterJoin J evs ∪ evictions s evs) := by
  intro evs
  induction evs with
  | nil =>
    intro J s s2 h _ _ _ _
    simp only [run, Outcome.ok.injEq] at h
    subst h
    simp [joins, leftAfterJoin, evictions]
  | cons e es ih =>
    intro J s s2 h hsub hnd hfresh hns
    obtain ⟨s1, hs, hr⟩ := run_cons_ok s s2 e es h
    have hj : joins (e :: es) = e.joins ++ joins es := by simp [joins]
    rw [hj] at hnd hfresh
    have hsh : e.isShutdown = false := by
      cases hh : e.isShutdown with
      | false => rfl
      | true => simp [shutdowns, List.filter_cons, hh] at hns
    have hns1 : shutdowns es = 0 := by
      simpa [shutdowns, List.filter_cons, hsh] using hns
    obtain ⟨m1, m2, m3⟩ := step_members s s1 e hs hsh
    have hnd1 := List.nodup_append.mp hnd
    have hsub1 : s1.room.clients ⊆ J ∪ e.joins.toFinset := by
      rw [m1]
      intro x hx
      simp only [Finset.mem_sdiff, Finset.mem_union] at hx
      simp only [Finset.mem_union]
      rcases hx.1 with hx1 | hx1
      · exact Or.inl (hsub hx1)
      · exact Or.inr hx1
    have hfresh1 : ∀ c ∈ joins es, c ∉ J ∪ e.joins.toFinset := by
      intro c hc
      simp only [Finset.mem_union, List.mem_toFinset, not_or]
      exact ⟨hfresh c (List.mem_append_right _ hc), fun hce => hnd1.2.2 hce hc⟩
    have key := ih (J ∪ e.joins.toFinset) s1 s2 hr hsub1 hnd1.2.1 hfresh1 hns1
    rw [key, m1, hj]
    simp only [leftAfterJoin, evictions, hs]
    ext x
    simp only [Finset.mem_sdiff, Finset.mem_union, Finset.mem_inter, List.toFinset_append,
      List.mem_toFinset, not_or, not_and]
    have f1 : x ∈ s.room.clients → x ∈ J := fun hx => hsub hx
    have f2 : x ∈ joins es → x ∉ J := fun hx => hfresh x (List.mem_append_right _ hx)
    have f3 : x ∈ e.joins → x ∉ e.leaves := m3 x
    have f4 : x ∈ e.evicted s s1 → x ∈ s.room.clients := fun hx => m2 hx
    tauto

theorem step_mem_back (s s1 : State) (e : Event) (c : ClientPtr)
    (h : step s e = Outcome.ok s1) (hc : c ∈ s1.room.clients) (hj : c ∉ e.joins) :
    c ∈ s.room.clients := by
  cases e with
  | register x now =>
    obtain ⟨h1, -, -⟩ := step_register_ok s s1 x now h
    rw [h1] at hc
    simp only [Event.joins, List.mem_singleton] at hj
    exact Finset.mem_of_mem_insert_of_ne hc hj
  | unregister x now =>
    obtain ⟨h1, -, -⟩ := step_unregister_ok s s1 x now h
    rw [h1] at hc
    exact Finset.mem_of_mem_erase hc
  | broadcast order =>
    obtain ⟨msg, -, h1, -, -⟩ := step_broadcast_ok s s1 order h
    rw [h1] at hc
    exact Finset.mem_of_mem_filter c hc
  | closed order =>
    obtain ⟨h1, -⟩ := step_closed_ok s s1 order h
    rw [h1] at hc
    exact absurd hc (Finset.not_mem_empty c)
  | closeRoom =>
    obtain ⟨h1, -, -⟩ := step_closeRoom_ok s s1 h
    rwa [h1] at hc
  | readPump x payload now =>
    obtain ⟨h1, -, -⟩ := step_readPump_ok s s1 x payload now h
    rwa [h1] at hc
  | writePump x =>
    obtain ⟨h1, -⟩ := step_writePump_ok s s1 x h
    rwa [h1] at hc

theorem run_mem_back (c : ClientPtr) : ∀ (evs : List Event) (s s2 : State),
    run s evs = Outcome.ok s2 → c ∈ s2.room.clients → c ∉ joins evs → c ∈ s.room.clients := by
  intro evs
  induction evs with
  | nil =>
    intro s s2 h hc _
    simp only [run, Outcome.ok.injEq] at h
    subst h; exact hc
  | cons e es ih =>
    intro s s2 h hc hj
    obtain ⟨s1, hs, hr⟩ := run_cons_ok s s2 e es h
    have hj2 : joins (e :: es) = e.joins ++ joins es := by simp [joins]
    rw [hj2, List.mem_append, not_or] at hj
    exact step_mem_back s s1 e c hs (ih s1 s2 hr hc hj.2) hj.1

theorem step_fifo (s s1 : State) (e : Event) (c : ClientPtr)
    (h : step s e = Outcome.ok s1) (hc : c ∈ s.room.clients) (hc1 : c ∈ s1.room.clients)
    (hop : (s.heap c).send.closed = false) :
    (s1.heap c).send.closed = false ∧
      s.room.Broadcast ++ e.accepted s = e.taken s ++ s1.room.Broadcast ∧
      (s1.heap c).send.buf = ((s.heap c).send.buf ++ e.taken s).drop (e.pumped c) ∧
      e.pumped c ≤ ((s.heap c).send.buf ++ e.taken s).length := by
  cases e with
  | register x now =>
    obtain ⟨-, h2, h3⟩ := step_register_ok s s1 x now h
    simp [h2, h3, hop, Event.accepted, Event.taken, Event.pumped]
  | unregister x now =>
    obtain ⟨h1, h2, h3⟩ := step_unregister_ok s s1 x now h
    have hne : c ≠ x := by
      rw [h1] at hc1
      exact Finset.ne_of_mem_erase hc1
    simp [h2 c hne, h3, hop, Event.accepted, Event.taken, Event.pumped]
  | broadcast order =>
    obtain ⟨msg, h1, h2, h3, -⟩ := step_broadcast_ok s s1 order h
    rw [h2, Finset.mem_filter] at hc1
    simp [h1, h3, hc, pushOrEvict, hc1.2, hop, Event.accepted, Event.taken, Event.pumped]
  | closed order =>
    obtain ⟨h1, -⟩ := step_closed_ok s s1 order h
    rw [h1] at hc1
    exact absurd hc1 (Finset.not_mem_empty c)
  | closeRoom =>
    obtain ⟨-, h2, h3⟩ := step_closeRoom_ok s s1 h
    simp [h2, h3, hop, Event.accepted, Event.taken, Event.pumped]
  | readPump x payload now =>
    obtain ⟨-, h2, h3⟩ := step_readPump_ok s s1 x payload now h
    simp [h2, h3, hop, Event.accepted, Event.taken, Event.pumped]
  | writePump x =>
    obtain ⟨-, h2, h3, h4, h5, h6⟩ := step_writePump_ok s s1 x h
    by_cases hx : x = c
    · subst hx
      simp [h2, h4, h5, hop, Event.accepted, Event.taken, Event.pumped, h6 hop]
    · have hx2 : c ≠ x := fun hh => hx hh.symm
      simp [h2, h3 c hx2, hop, Event.accepted, Event.taken, Event.pumped, hx]

theorem fifo_aux (c : ClientPtr) : ∀ (evs : List Event) (s s2 : State),
    run s evs = Outcome.ok s2 → c ∈ s.room.clients → (s.heap c).send.closed = false →
    c ∈ s2.room.clients → c ∉ joins evs →
    s.room.Broadcast ++ accepted s evs = taken s evs ++ s2.room.Broadcast ∧
      (s2.heap c).send.buf = ((s.heap c).send.buf ++ taken s evs).drop (pumped c evs) := by
  intro evs
  induction evs with
  | nil =>
    intro s s2 h _ _ _ _
    simp only [run, Outcome.ok.injEq] at h
    subst h
    simp [accepted, taken, pumped]
  | cons e es ih =>
    intro s s2 h hc hop hc2 hj
    obtain ⟨s1, hs, hr⟩ := run_cons_ok s s2 e es h
    have hj2 : joins (e :: es) = e.joins ++ joins es := by simp [joins]
    rw [hj2, List.mem_append, not_or] at hj
    have hc1 : c ∈ s1.room.clients := run_mem_back c es s1 s2 hr hc2 hj.2
    obtain ⟨f1, f2, f3, f4⟩ := step_fifo s s1 e c hs hc hc1 hop
    obtain ⟨g1, g2⟩ := ih s1 s2 hr hc1 f1 hc2 hj.2
    simp only [accepted, taken, pumped, hs]
    refine ⟨?_, ?_⟩
    · rw [← List.append_assoc, f2, List.append_assoc, g1, List.append_assoc]
    · rw [g2, f3, ← List.append_assoc, ← List.drop_append_of_le_length f4, List.drop_drop,
        Nat.add_comm]

/-! ### Fan-out isolation -/

/-- C1. Fan-out of the envelope at the head of the inbox, in a room whose members have open
outboxes: whatever enumeration of the members the map iteration follows, the step completes
with the same state; a member with fewer than 256 queued items stays a member and gets the
envelope appended; a member with a full outbox is removed and its outbox closed; nobody else
is touched. -/
theorem fanout_isolation (s : State) (msg : Message) (rest : List Message)
    (o1 o2 : List ClientPtr) (hrun : s.running = true) (hin : s.room.Broadcast = msg :: rest)
    (hopen : ∀ c ∈ s.room.clients, (s.heap c).send.closed = false)
    (h1 : o1.Nodup ∧ o1.toFinset = s.room.clients)
    (h2 : o2.Nodup ∧ o2.toFinset = s.room.clients) :
    ∃ s1, step s (Event.broadcast o1) = Outcome.ok s1 ∧
      step s (Event.broadcast o2) = Outcome.ok s1 ∧
      s1.room.Broadcast = rest ∧
      (∀ c ∈ s.room.clients, (s.heap c).send.buf.length < 256 →
        c ∈ s1.room.clients ∧
        (s1.heap c).send = { buf := (s.heap c).send.buf ++ [msg], closed := false }) ∧
      (∀ c ∈ s.room.clients, 256 ≤ (s.heap c).send.buf.length →
        c ∉ s1.room.clients ∧ (s1.heap c).send.closed = true) ∧
      (∀ c, c ∉ s.room.clients → c ∉ s1.room.clients ∧ s1.heap c = s.heap c) := by
  have hm1 : ∀ c, c ∈ o1 ↔ c ∈ s.room.clients := by intro c; rw [← h1.2]; simp
  have hm2 : ∀ c, c ∈ o2 ↔ c ∈ s.room.clients := by intro c; rw [← h2.2]; simp
  have e1 := fanOut_eq msg o1 s.room.clients s.heap h1.1 (fun c hc => hopen c ((hm1 c).mp hc))
  have e2 := fanOut_eq msg o2 s.room.clients s.heap h2.1 (fun c hc => hopen c ((hm2 c).mp hc))
  have hsame : (s.room.clients.filter (fun c => c ∉ o2 ∨ (s.heap c).send.buf.length < sendCap),
      fun c => if c ∈ o2 then pushOrEvict msg (s.heap c) else s.heap c) =
      (s.room.clients.filter (fun c => c ∉ o1 ∨ (s.heap c).send.buf.length < sendCap),
      fun c => if c ∈ o1 then pushOrEvict msg (s.heap c) else s.heap c) := by
    refine Prod.ext ?_ ?_
    · ext x; simp [hm1, hm2]
    · funext x; simp [hm1, hm2]
  rw [hsame] at e2
  refine ⟨{ s with
    room := { s.room with
      clients := s.room.clients.filter
        (fun c => c ∉ o1 ∨ (s.heap c).send.buf.length < sendCap),
      Broadcast := rest },
    heap := fun c => if c ∈ o1 then pushOrEvict msg (s.heap c) else s.heap c },
    ?_, ?_, ?_, ?_, ?_, ?_⟩
  · simp only [step, hrun, h1, hin, and_self, if_true, e1]
  · simp only [step, hrun, h2, hin, and_self, if_true, e2]
  · rfl
  · intro c hc hlen
    have hlen2 : (s.heap c).send.buf.length < sendCap := hlen
    refine ⟨?_, ?_⟩
    · simp [hc, hlen2]
    · simp [(hm1 c).mpr hc, pushOrEvict, hlen2, hopen c hc]
  · intro c hc hlen
    have hlen2 : ¬ (s.heap c).send.buf.length < sendCap := by
      simp only [sendCap]; omega
    refine ⟨?_, ?_⟩
    · simp [hc, hlen2, (hm1 c).mpr hc]
    · simp [(hm1 c).mpr hc, pushOrEvict, hlen2]
  · intro c hc
    refine ⟨?_, ?_⟩
    · simp [hc]
    · simp [mt (hm1 c).mp hc]

/-- Witness for `fanout_isolation`: the two visiting orders of alice and bob. -/
theorem fanout_isolation_witness :
    demoJoined.running = true ∧
      demoJoined.room.Broadcast =
        systemMessage "alice joined" 0 :: [systemMessage "bob joined" 0] ∧
      (∀ c ∈ demoJoined.room.clients, (demoJoined.heap c).send.closed = false) ∧
      ([1, 2].Nodup ∧ [1, 2].toFinset = demoJoined.room.clients) ∧
      ([2, 1].Nodup ∧ [2, 1].toFinset = demoJoined.room.clients) ∧
      ∃ s1, step demoJoined (Event.broadcast [1, 2]) = Outcome.ok s1 ∧
        step demoJoined (Event.broadcast [2, 1]) = Outcome.ok s1 :=
  ⟨by decide, by decide, by decide, by decide, by decide,
    (fanout_isolation demoJoined (systemMessage "alice joined" 0)
      [systemMessage "bob joined" 0] [1, 2] [2, 1]
      (by decide) (by decide) (by decide) (by decide) (by decide)).imp
      (fun _ h => ⟨h.1, h.2.1⟩)⟩

/-! ### Membership replay -/

/-- C2, amended.  After any processed sequence of events without shutdown, from a freshly
created room and with each session registered at most once, the member set is exactly the
sessions whose join was processed, minus those whose leave was processed after their join and
minus those a fan-out removed. -/
theorem membership_replay (h : Hub) (rand : Nat → Nat) (p : RoomPtr)
    (names : ClientPtr → String) (evs : List Event) (s : State)
    (hrun : run (initState h rand p names) evs = Outcome.ok s)
    (hnd : (joins evs).Nodup) (hns : shutdowns evs = 0) :
    s.room.clients = (joins evs).toFinset \
      (leftAfterJoin ∅ evs ∪ evictions (initState h rand p names) evs) := by
  have key := members_replay_aux evs ∅ (initState h rand p names) s hrun
    (by simp [initState, Hub.CreateRoom, NewRoom]) hnd (fun c _ => Finset.not_mem_empty c) hns
  rw [key]
  simp [initState, Hub.CreateRoom, NewRoom]

/-- Witness for `membership_replay`: alice and bob join, alice leaves, bob remains. -/
theorem membership_replay_witness :
    ∃ s, run demoInit [Event.register 1 0, Event.register 2 0, Event.unregister 1 3] =
        Outcome.ok s ∧
      (joins [Event.register 1 0, Event.register 2 0, Event.unregister 1 3]).Nodup ∧
      shutdowns [Event.register 1 0, Event.register 2 0, Event.unregister 1 3] = 0 ∧
      s.room.clients = {2} ∧
      s.room.clients =
        (joins [Event.register 1 0, Event.register 2 0, Event.unregister 1 3]).toFinset \
          (leftAfterJoin ∅ [Event.register 1 0, Event.register 2 0, Event.unregister 1 3] ∪
            evictions demoInit
              [Event.register 1 0, Event.register 2 0, Event.unregister 1 3]) :=
  ⟨_, rfl, by decide, by decide, by decide,
    membership_replay NewHub zeroRand 1 demoNames _ _ rfl (by decide) (by decide)⟩

/-- C2 as stated fails: a leave processed before the join of the same session does not
remove it, yet the claimed formula (joined minus left minus evicted) excludes it. -/
theorem membership_replay_literal_fails :
    ∃ s, run demoInit [Event.unregister 1 0, Event.register 1 0] = Outcome.ok s ∧
      (joins [Event.unregister 1 0, Event.register 1 0]).Nodup ∧
      s.room.clients = {1} ∧
      s.room.clients ≠ (joins [Event.unregister 1 0, Event.register 1 0]).toFinset \
        ((leaves [Event.unregister 1 0, Event.register 1 0]).toFinset ∪
          evictions demoInit [Event.unregister 1 0, Event.register 1 0]) :=
  ⟨_, rfl, by decide, by decide, by decide⟩

/-! ### FIFO delivery -/

/-- C3. In any processed sequence of events, the inbox is a FIFO queue: the envelopes present
or accepted, in acceptance order, are the envelopes the loop took for fan-out followed by those
still queued.  A session that is a member before and after, and is not registered again in
between, has exactly the taken envelopes appended to its outbox in that order, once each; its
outbound pump removes items only from the front. -/
theorem fifo_delivery (s s2 : State) (evs : List Event) (c : ClientPtr)
    (hrun : run s evs = Outcome.ok s2) (hmem : c ∈ s.room.clients)
    (hopen : (s.heap c).send.closed = false) (hstay : c ∈ s2.room.clients)
    (hjoin : c ∉ joins evs) :
    s.room.Broadcast ++ accepted s evs = taken s evs ++ s2.room.Broadcast ∧
      (s2.heap c).send.buf = ((s.heap c).send.buf ++ taken s evs).drop (pumped c evs) ∧
      (s2.room.Broadcast = [] →
        (s2.heap c).send.buf =
          ((s.heap c).send.buf ++ (s.room.Broadcast ++ accepted s evs)).drop
            (pumped c evs)) := by
  obtain ⟨h1, h2⟩ := fifo_aux c evs s s2 hrun hmem hopen hstay hjoin
  refine ⟨h1, h2, fun hempty => ?_⟩
  rw [h2, h1, hempty, List.append_nil]

/-- Witness for `fifo_delivery`: alice submits "hi" after her join notice; both reach her
outbox in that order and her pump then removes the first. -/
theorem fifo_delivery_witness :
    ∃ s2, run demoAlice demoChat = Outcome.ok s2 ∧
      1 ∈ demoAlice.room.clients ∧ (demoAlice.heap 1).send.closed = false ∧
      1 ∈ s2.room.clients ∧ 1 ∉ joins demoChat ∧
      (s2.heap 1).send.buf = [readPumpMessage "alice" "hi" 1] ∧
      (s2.heap 1).send.buf =
        ((demoAlice.heap 1).send.buf ++ taken demoAlice demoChat).drop (pumped 1 demoChat) :=
  ⟨_, rfl, by decide, by decide, by decide, by decide, by decide,
    (fifo_delivery demoAlice _ demoChat 1 rfl (by decide) (by decide) (by decide)
      (by decide)).2.1⟩

/-! ### Idempotent close -/

/-- What the close path does guarantee.  `CloseRoom` never panics or blocks, fires the signal,
and any number of further calls made one after another leave the state as the first call left
it.  Along every event sequence
processed from a freshly created room the shutdown path runs at most once, `DeleteRoom` is
called once per run of that path and with the room id, and the path has run exactly once
precisely when the loop has returned.  While the loop is still running with the signal fired
(each session registered at most once), the closed case is ready for every enumeration of the
members, completes, and leaves exactly one `DeleteRoom` call. -/
theorem close_idempotent (h : Hub) (rand : Nat → Nat) (p : RoomPtr)
    (names : ClientPtr → String) (evs : List Event) (s : State)
    (hrun : run (initState h rand p names) evs = Outcome.ok s) :
    (∀ (t : State) (n : Nat), ∃ t1, step t Event.closeRoom = Outcome.ok t1 ∧
        t1.room.closed = true ∧ step t1 Event.closeRoom = Outcome.ok t1 ∧
        run t (List.replicate (n + 1) Event.closeRoom) = Outcome.ok t1) ∧
      shutdowns evs ≤ 1 ∧
      s.deleteCalls = List.replicate (shutdowns evs) s.room.ID ∧
      (s.running = false ↔ shutdowns evs = 1) ∧
      ((joins evs).Nodup → s.running = true → s.room.closed = true →
        ∀ order : List (ClientPtr × Int),
          (order.map Prod.fst).Nodup ∧ (order.map Prod.fst).toFinset = s.room.clients →
          ∃ s1, step s (Event.closed order) = Outcome.ok s1 ∧ s1.running = false ∧
            s1.deleteCalls = [s.room.ID]) := by
  refine ⟨?_, ?_⟩
  · intro t n
    have hfix : ∀ (u : State), u.room.closed = true → ∀ k,
        run u (List.replicate k Event.closeRoom) = Outcome.ok u := by
      intro u hu k
      induction k with
      | zero => simp [run]
      | succ k ih =>
        simp only [List.replicate_succ, run, step, Room.CloseRoom, hu, if_true]
        exact ih
    by_cases h1 : t.room.closed = true
    · refine ⟨t, by simp [step, Room.CloseRoom, h1], h1, by simp [step, Room.CloseRoom, h1],
        hfix t h1 _⟩
    · refine ⟨{ t with room := { t.room with closed := true } }, ?_, rfl, ?_, ?_⟩
      · simp [step, Room.CloseRoom, closeSignal, h1]
      · simp [step, Room.CloseRoom]
      · simp only [List.replicate_succ, run, step, Room.CloseRoom, closeSignal, h1, if_false,
          Option.map_some']
        exact hfix _ rfl n
  · obtain ⟨i1, i2, -, i4⟩ := run_control evs _ s hrun
    have hr : (initState h rand p names).running = true := rfl
    have hh : (initState h rand p names).room.hub = true := rfl
    obtain ⟨j1, j2, j3⟩ := i4 hr
    have hcalls : s.deleteCalls = List.replicate (shutdowns evs) s.room.ID := by
      rw [j3, i1, hh]
      simp [initState]
    refine ⟨j1, hcalls, j2, ?_⟩
    intro hnd hsrun hsig order hord
    have hsafe := run_inv evs ∅ (initState h rand p names) (initState_inv h rand p names) hnd
      (fun c _ => Finset.not_mem_empty c)
    rw [hrun] at hsafe
    have hzero : shutdowns evs = 0 := by
      have hne : shutdowns evs ≠ 1 := fun h1 => by
        rw [j2.mpr h1] at hsrun
        exact absurd hsrun (by simp)
      omega
    obtain ⟨s1, k1, -, -, -, k5, -, k7⟩ :=
      step_closed_of_open s order hsrun hsig (Inv.open_of_mem hsafe) hord
    refine ⟨s1, k1, k5, ?_⟩
    rw [k7, hcalls, hzero, i2, hh]
    simp

/-- Witness for `close_idempotent`: three calls of `CloseRoom` around one shutdown. -/
theorem close_idempotent_witness :
    ∃ s, run demoInit demoCloseTrace = Outcome.ok s ∧
      s.deleteCalls = ["000000000000"] ∧ shutdowns demoCloseTrace ≤ 1 :=
  ⟨_, rfl, by decide,
    (close_idempotent NewHub zeroRand 1 demoNames demoCloseTrace _ rfl).2.1⟩

/-- The inbox-filling trace completes: the loop is running, the signal is not yet fired, the
inbox holds 256 envelopes and the shutdown path has not run. -/
theorem fullInboxTrace_state :
    ∃ s, run demoInit fullInboxTrace = Outcome.ok s ∧ s.running = true ∧
      s.room.closed = false ∧ s.room.Broadcast.length = 256 ∧ s.deleteCalls = [] ∧
      shutdowns fullInboxTrace = 0 := by
  have hA : ∃ s, run demoInit [Event.register 1 0, Event.broadcast [1]] = Outcome.ok s ∧
      s.running = true ∧ s.room.Broadcast = [] ∧ s.room.closed = false :=
    ⟨_, rfl, rfl, rfl, rfl⟩
  obtain ⟨sA, a1, a2, a3, a5⟩ := hA
  obtain ⟨sB, b1, b2, b3, -, b5, -⟩ := run_readPumps 1 "x" 0 256 sA
    (by simp [a3, broadcastCap])
  have hB : run demoInit fullInboxTrace = Outcome.ok sB := by
    simp only [fullInboxTrace, run_append, a1, Outcome.andThen, b1]
  have hrunB : sB.running = true := by rw [b3, a2]
  obtain ⟨-, -, -, c4⟩ := run_control fullInboxTrace demoInit sB hB
  obtain ⟨d1, d2, d3⟩ := c4 rfl
  have hzero : shutdowns fullInboxTrace = 0 := by
    have hne : shutdowns fullInboxTrace ≠ 1 := fun h1 => by
      rw [d2.mpr h1] at hrunB
      exact absurd hrunB (by simp)
    omega
  refine ⟨sB, hB, hrunB, by rw [b5, a5], by simp [b2, a3], ?_, hzero⟩
  rw [d3, hzero]
  simp [demoInit, initState]

/-- C4, evaluation at the failing input.  With 256 envelopes queued in the inbox, `CloseRoom`
is called twice: both calls complete, the signal is fired, the loop is still running and
neither the shutdown path nor `DeleteRoom` has run.  The loop then takes a join request and
blocks in its own send on the inbox; whatever events follow, the run stays blocked, so the
shutdown path and `DeleteRoom` run zero times instead of once. -/
theorem close_signal_never_served :
    (∃ s, run demoInit (fullInboxTrace ++ [Event.closeRoom, Event.closeRoom]) = Outcome.ok s ∧
        s.running = true ∧ s.room.closed = true ∧ s.deleteCalls = [] ∧
        shutdowns (fullInboxTrace ++ [Event.closeRoom, Event.closeRoom]) = 0) ∧
      ∀ rest : List Event,
        run demoInit
          (fullInboxTrace ++ ([Event.closeRoom, Event.closeRoom, Event.register 2 0] ++ rest)) =
            Outcome.blocked := by
  obtain ⟨sB, hB, hrunB, hclosed, hlen, hcalls, hzero⟩ := fullInboxTrace_state
  have hC : step sB Event.closeRoom =
      Outcome.ok { sB with room := { sB.room with closed := true } } := by
    simp [step, Room.CloseRoom, closeSignal, hclosed]
  have hC2 : step { sB with room := { sB.room with closed := true } } Event.closeRoom =
      Outcome.ok { sB with room := { sB.room with closed := true } } := by
    simp [step, Room.CloseRoom]
  have hblock : step { sB with room := { sB.room with closed := true } }
      (Event.register 2 0) = Outcome.blocked :=
    step_register_blocked _ 2 0 hrunB (by simp [hlen, broadcastCap])
  refine ⟨⟨{ sB with room := { sB.room with closed := true } }, ?_, hrunB, rfl, hcalls, ?_⟩, ?_⟩
  · rw [run_append, hB]
    simp only [Outcome.andThen, run, hC, hC2]
  · simpa [shutdowns, List.filter_append, Event.isShutdown] using hzero
  · intro rest
    rw [run_append, hB]
    simp only [Outcome.andThen, List.cons_append, List.nil_append, run, hC, hC2, hblock]

/-! ### Shutdown -/

/-- C5. Shutdown of a room that holds a reference to its registry, whose close signal was
fired and whose members have open outboxes: the closed case completes, the member set is
empty, every former member has its outbox and its connection closed, the loop has returned
and the registry no longer finds the room id. -/
theorem shutdown_post_state (s : State) (order : List (ClientPtr × Int))
    (hrun : s.running = true) (hsig : s.room.closed = true) (hhub : s.room.hub = true)
    (hopen : ∀ c ∈ s.room.clients, (s.heap c).send.closed = false)
    (hord : (order.map Prod.fst).Nodup ∧ (order.map Prod.fst).toFinset = s.room.clients) :
    ∃ s1, step s (Event.closed order) = Outcome.ok s1 ∧
      s1.room.clients = ∅ ∧
      (∀ c ∈ s.room.clients,
        (s1.heap c).send.closed = true ∧ (s1.heap c).conn.closed = true) ∧
      s1.hub.GetRoom s.room.ID = none ∧ s1.room.ID = s.room.ID ∧ s1.running = false := by
  obtain ⟨s1, h1, h2, h3, h4, h5, h6, -⟩ := step_closed_of_open s order hrun hsig hopen hord
  refine ⟨s1, h1, h2, h3, ?_, h4, h5⟩
  rw [h6, hhub]
  simp [Hub.GetRoom, Hub.DeleteRoom]

/-- Witness for `shutdown_post_state`: shutdown of a room with alice as its only member. -/
theorem shutdown_post_state_witness :
    demoClosing.running = true ∧ demoClosing.room.closed = true ∧
      demoClosing.room.hub = true ∧ demoClosing.hub.GetRoom demoClosing.room.ID = some 1 ∧
      (∀ c ∈ demoClosing.room.clients, (demoClosing.heap c).send.closed = false) ∧
      (([(1, 5)] : List (ClientPtr × Int)).map Prod.fst).Nodup ∧
      ∃ s1, step demoClosing (Event.closed [(1, 5)]) = Outcome.ok s1 ∧
        s1.room.clients = ∅ ∧ s1.hub.GetRoom demoClosing.room.ID = none :=
  ⟨by decide, by decide, by decide, by decide, by decide, by decide,
    (shutdown_post_state demoClosing [(1, 5)] (by decide) (by decide) (by decide)
      (by decide) (by decide)).imp (fun _ h => ⟨h.1, h.2.1, h.2.2.2.1⟩)⟩

/-! ### Leave request -/

/-- C6. A leave request never blocks the loop.  For a non-member the state is unchanged.
For a member (whose outbox is open) the member is removed, its outbox closed and nothing else
in the heap touched, and the notice `name ++ " left"` is appended to the inbox when it holds
fewer than 256 items and dropped when the inbox is full. -/
theorem leave_request (s : State) (c : ClientPtr) (now : Int) (hrun : s.running = true) :
    step s (Event.unregister c now) ≠ Outcome.blocked ∧
      (c ∉ s.room.clients → step s (Event.unregister c now) = Outcome.ok s) ∧
      (c ∈ s.room.clients → (s.heap c).send.closed = false →
        ∃ s1, step s (Event.unregister c now) = Outcome.ok s1 ∧
          s1.room.clients = s.room.clients.erase c ∧
          (s1.heap c).send = { buf := (s.heap c).send.buf, closed := true } ∧
          (∀ x, x ≠ c → s1.heap x = s.heap x) ∧
          (s.room.Broadcast.length < 256 → s1.room.Broadcast = s.room.Broadcast ++
            [{ type := "system", sender := "system", content := (s.heap c).name ++ " left",
               time := now }]) ∧
          (256 ≤ s.room.Broadcast.length → s1.room.Broadcast = s.room.Broadcast)) := by
  refine ⟨?_, ?_, ?_⟩
  · by_cases h2 : c ∈ s.room.clients
    · simp only [step, hrun, h2, if_true]
      cases (s.heap c).send.close <;> simp
    · simp [step, hrun, h2]
  · intro h2
    simp [step, hrun, h2]
  · intro h2 hop
    refine ⟨{ s with
      room := { s.room with
        clients := s.room.clients.erase c,
        Broadcast :=
          if s.room.Broadcast.length < broadcastCap then
            s.room.Broadcast ++ [systemMessage ((s.heap c).name ++ " left") now]
          else s.room.Broadcast },
      heap := Function.update s.heap c
        { s.heap c with send := { (s.heap c).send with closed := true } } },
      ?_, ?_, ?_, ?_, ?_, ?_⟩
    · simp only [step, hrun, h2, if_true, Chan.close, hop, Bool.false_eq_true, if_false]
    · rfl
    · simp
    · intro x hx
      simp [Function.update_noteq hx]
    · intro hlen
      have hlen2 : s.room.Broadcast.length < broadcastCap := hlen
      simp [hlen2, systemMessage]
    · intro hlen
      have hlen2 : ¬ s.room.Broadcast.length < broadcastCap := by
        simp only [broadcastCap]; omega
      simp [hlen2]

/-- Witness for `leave_request`: a session that never joined asks to leave. -/
theorem leave_request_witness :
    demoJoined.running = true ∧ 3 ∉ demoJoined.room.clients ∧
      step demoJoined (Event.unregister 3 5) = Outcome.ok demoJoined :=
  ⟨by decide, by decide, (leave_request demoJoined 3 5 (by decide)).2.1 (by decide)⟩

/-! ### Members and open outboxes -/

/-- C7. In every state that `run` reaches from a freshly created room through any sequence of
events in which each session is registered at most once, a joined session is a member exactly
when its outbox is open, and the loop never panics (it never closes a closed outbox and never
sends on one). -/
theorem member_iff_outbox_open (h : Hub) (rand : Nat → Nat) (p : RoomPtr)
    (names : ClientPtr → String) (evs : List Event) (hnd : (joins evs).Nodup) :
    run (initState h rand p names) evs ≠ Outcome.panicked ∧
      ∀ s, run (initState h rand p names) evs = Outcome.ok s →
        (∀ c ∈ s.room.clients, c ∈ joins evs) ∧
        ∀ c ∈ joins evs, (c ∈ s.room.clients ↔ (s.heap c).send.closed = false) := by
  have hsafe := run_inv evs ∅ (initState h rand p names) (initState_inv h rand p names) hnd
    (fun c _ => Finset.not_mem_empty c)
  rw [Outcome.safe_iff] at hsafe
  refine ⟨hsafe.1, fun s hs => ?_⟩
  obtain ⟨hsub, hiff⟩ := hsafe.2 s hs
  simp only [Finset.empty_union] at hsub hiff
  refine ⟨fun c hc => List.mem_toFinset.mp (hsub hc), fun c hc => ?_⟩
  rw [hiff c]
  simp [hc]

/-- Witness for `member_iff_outbox_open`: two joins, a fan-out and a leave. -/
theorem member_iff_outbox_open_witness :
    (joins [Event.register 1 0, Event.register 2 0, Event.broadcast [1, 2],
        Event.unregister 1 3]).Nodup ∧
      run demoInit [Event.register 1 0, Event.register 2 0, Event.broadcast [1, 2],
        Event.unregister 1 3] ≠ Outcome.panicked :=
  ⟨by decide,
    (member_iff_outbox_open NewHub zeroRand 1 demoNames
      [Event.register 1 0, Event.register 2 0, Event.broadcast [1, 2], Event.unregister 1 3]
      (by decide)).1⟩

/-! ### Room ids -/

/-- C8, amended.  `CreateRoom` takes the 12 hex digits of the six random bytes as the room id
without consulting the registry, and afterwards `GetRoom` of that id returns the new room.
When the id was not a key before the call, every earlier entry is kept as it was. -/
theorem createRoom_keeps_entries (h : Hub) (rand : Nat → Nat) (p : RoomPtr) :
    (h.CreateRoom rand p).2.ID = newID 6 rand ∧
      (h.CreateRoom rand p).2.ID.length = 12 ∧
      (h.CreateRoom rand p).1.GetRoom (h.CreateRoom rand p).2.ID = some p ∧
      (h.GetRoom (h.CreateRoom rand p).2.ID = none →
        ∀ id q, h.GetRoom id = some q → (h.CreateRoom rand p).1.GetRoom id = some q) := by
  refine ⟨rfl, ?_, ?_, ?_⟩
  · simp [Hub.CreateRoom, NewRoom, newID, EncodeToString, String.length, hexByte,
      List.range_succ]
  · simp [Hub.CreateRoom, Hub.GetRoom]
  · intro hnone id q hq
    have hne : id ≠ (h.CreateRoom rand p).2.ID := by
      intro heq
      rw [heq, hnone] at hq
      exact absurd hq (by simp)
    simp only [Hub.CreateRoom, Hub.GetRoom] at hne ⊢
    rw [Function.update_noteq hne]
    exact hq

/-- Witness for `createRoom_keeps_entries`: a second room with a different id leaves the
first entry in place. -/
theorem createRoom_keeps_entries_witness :
    (NewHub.CreateRoom zeroRand 1).1.GetRoom
        (((NewHub.CreateRoom zeroRand 1).1.CreateRoom (fun _ => 1) 2).2.ID) = none ∧
      ((NewHub.CreateRoom zeroRand 1).1.CreateRoom (fun _ => 1) 2).1.GetRoom "000000000000" =
        some 1 :=
  ⟨by decide,
    (createRoom_keeps_entries (NewHub.CreateRoom zeroRand 1).1 (fun _ => 1) 2).2.2.2
      (by decide) "000000000000" 1 (by decide)⟩

/-- C8 as stated fails: when the random source repeats an outcome, the id returned by
`CreateRoom` was already a key of the registry, and the entry of the earlier room is
overwritten, so `GetRoom` of its id no longer returns it. -/
theorem createRoom_id_collision :
    (NewHub.CreateRoom zeroRand 1).1.GetRoom "000000000000" = some 1 ∧
      ((NewHub.CreateRoom zeroRand 1).1.CreateRoom zeroRand 2).2.ID = "000000000000" ∧
      ((NewHub.CreateRoom zeroRand 1).1.CreateRoom zeroRand 2).1.GetRoom "000000000000" =
        some 2 :=
  ⟨by decide, by decide, by decide⟩

/-! ### Join on a full inbox -/

/-- C9, evaluation at the failing input.  With alice a member and 256 envelopes queued in the
inbox, the close signal is fired and then the loop takes a join request: the loop blocks in
its own send on the inbox and never reaches the shutdown path, although in the state before
the join the loop was running with the close signal fired. -/
theorem join_blocks_on_full_inbox :
    run demoInit (fullInboxTrace ++ [Event.closeRoom, Event.register 2 0]) = Outcome.blocked ∧
      ∃ s, run demoInit (fullInboxTrace ++ [Event.closeRoom]) = Outcome.ok s ∧
        s.running = true ∧ s.room.closed = true ∧ s.room.Broadcast.length = 256 ∧
        s.room.clients = {1} := by
  have hA : ∃ s, run demoInit [Event.register 1 0, Event.broadcast [1]] = Outcome.ok s ∧
      s.running = true ∧ s.room.Broadcast = [] ∧ s.room.clients = {1} ∧
      s.room.closed = false :=
    ⟨_, rfl, rfl, rfl, by decide, rfl⟩
  obtain ⟨sA, a1, a2, a3, a4, a5⟩ := hA
  obtain ⟨sB, b1, b2, b3, b4, b5, -⟩ := run_readPumps 1 "x" 0 256 sA
    (by simp [a3, broadcastCap])
  have hB : run demoInit fullInboxTrace = Outcome.ok sB := by
    simp only [fullInboxTrace, run_append, a1, Outcome.andThen, b1]
  have hlen : sB.room.Broadcast.length = 256 := by simp [b2, a3]
  have hclosed : sB.room.closed = false := by rw [b5, a5]
  have hC : step sB Event.closeRoom =
      Outcome.ok { sB with room := { sB.room with closed := true } } := by
    simp [step, Room.CloseRoom, closeSignal, hclosed]
  refine ⟨?_, { sB with room := { sB.room with closed := true } }, ?_, ?_, rfl, hlen, ?_⟩
  · rw [run_append, hB]
    simp only [Outcome.andThen, run, hC]
    rw [step_register_blocked _ 2 0 (by simp [b3, a2]) (by simp [hlen, broadcastCap])]
  · rw [run_append, hB]
    simp only [Outcome.andThen, run, hC]
  · simp [b3, a2]
  · simp [b4, a4]

/-! ### Inbound pump -/

/-- C10. Whatever the display name, the payload and the clock value, the envelope the
inbound pump submits has type "message", the session name as sender, the payload as content
and the clock value as time; it is never of type "system"; when the inbox has room the
submission appends exactly this envelope; and its JSON encoding differs from the raw payload
for every string encoder that does not shorten its argument. -/
theorem inbound_wrapping (quote : String → String) (s : State) (c : ClientPtr)
    (payload : String) (now : Int) :
    readPumpMessage (s.heap c).name payload now =
        { type := "message", sender := (s.heap c).name, content := payload, time := now } ∧
      (readPumpMessage (s.heap c).name payload now).type ≠ "system" ∧
      (∀ s1, step s (Event.readPump c payload now) = Outcome.ok s1 →
        s1.room.Broadcast = s.room.Broadcast ++
          [{ type := "message", sender := (s.heap c).name, content := payload,
             time := now }]) ∧
      (s.room.Broadcast.length < 256 →
        ∃ s1, step s (Event.readPump c payload now) = Outcome.ok s1) ∧
      ((∀ x : String, x.length ≤ (quote x).length) →
        marshal quote (readPumpMessage (s.heap c).name payload now) ≠ payload) := by
  refine ⟨rfl, by simp [readPumpMessage], ?_, ?_, ?_⟩
  · intro s1 h1
    exact (step_readPump_ok s s1 c payload now h1).2.2
  · intro hlen
    have h1 : s.room.Broadcast.length < broadcastCap := hlen
    exact ⟨{ s with room := { s.room with Broadcast :=
      s.room.Broadcast ++ [readPumpMessage (s.heap c).name payload now] } },
      by simp only [step, h1, if_true]⟩
  · intro hq heq
    have hlen := congrArg String.length heq
    have := hq payload
    simp only [marshal, readPumpMessage, String.length_append] at hlen
    have h0 : ("\x7b\"type\":" : String).length = 8 := by decide
    omega

/-- Witness for `inbound_wrapping`: a session named "system" sends the text "hi". -/
theorem inbound_wrapping_witness :
    (∀ x : String, x.length ≤ ((fun y => "\"" ++ y ++ "\"") x).length) ∧
      (readPumpMessage "system" "hi" 7).type ≠ "system" ∧
      marshal (fun y => "\"" ++ y ++ "\"") (readPumpMessage "system" "hi" 7) ≠ "hi" :=
  ⟨fun x => by simp only [String.length_append]; omega,
    (inbound_wrapping (fun y => "\"" ++ y ++ "\"")
      (initState NewHub zeroRand 1 (fun _ => "system")) 1 "hi" 7).2.1,
    (inbound_wrapping (fun y => "\"" ++ y ++ "\"")
      (initState NewHub zeroRand 1 (fun _ => "system")) 1 "hi" 7).2.2.2.2
      (fun x => by simp only [String.length_append]; omega)⟩

end ChatRoom
